import Mathlib

/-!
Verification of the joincap streaming k-way pcap merge engine
(shallow embedding of src/main.go).

The embedding covers the core described by the spec: the record type, the
anomaly filtering performed by readNext, the min-heap scheduler, the
initialization over input files (initHeapWithInputFiles) and the
steady-state merge loop of joincap.  Binary pcap decoding, command line
parsing and the file system are outside the core (spec section 1) and are
represented at their interface boundary: an input file is either
unopenable, unparsable, or a list of decode results; the sink is
represented by a per-record acceptance oracle.
-/

namespace Joincap

/-- Raw payload bytes of one capture record. -/
abbrev Payload := List Nat

/-- Result of one ReadPacketData call on a source: a decoded record
(timestamp in nanoseconds plus payload) or a mid-stream decode error.
End of stream is reaching the end of the list. -/
inductive ReadItem where
  | ok (ts : Int) (data : Payload)
  | decodeError
deriving DecidableEq, Repr

/-- One pending record as staged in the heap: timestamp, payload and the
index of the originating source (the Reader and InputFile fields of
minheap.Packet, reduced to a lookup key as in spec section 3). -/
structure Packet where
  timestamp : Int
  data : Payload
  src : Nat
deriving DecidableEq, Repr

/-- One hour in nanoseconds, the tolerance window of readNext. -/
def oneHour : Int := 3600000000000

/-- Snaplen ceiling written to the output header (maxSnaplen in main.go). -/
def maxSnaplen : Nat := 262144

/-- LinkTypeNull of gopacket layers, the zero value seeding linkType. -/
def LinkTypeNull : Nat := 0

/-- LinkTypeEthernet of gopacket layers, the heterogeneous fallback. -/
def LinkTypeEthernet : Nat := 1

/-- Translation of readNext from src/main.go.  It repeatedly reads from
one source: decode errors are skipped; outside initialization a record
whose timestamp is more than one hour before previousTimestamp is
skipped; a record with empty payload is skipped; the first surviving
record is returned together with the remaining items of the source.
Exhausting the source yields none (the io.EOF branch, which closes the
file). -/
def readNext (previousTimestamp : Int) (isInit : Bool) :
    List ReadItem → Option (Int × Payload) × List ReadItem
  | [] => (none, [])
  | ReadItem.decodeError :: rest => readNext previousTimestamp isInit rest
  | ReadItem.ok ts data :: rest =>
    if isInit = false ∧ ts + oneHour < previousTimestamp then
      readNext previousTimestamp isInit rest
    else if data = [] then
      readNext previousTimestamp isInit rest
    else
      (some (ts, data), rest)

/-- Modelled from the spec: the minheap package of the repository is not
under src/, so the scheduler is taken from spec section 4.2: a priority
queue of packets keyed by timestamp ascending.  push inserts a packet. -/
def heapPush (h : List Packet) (p : Packet) : List Packet := h ++ [p]

/-- Modelled from the spec: auxiliary scan extracting a packet of minimal
timestamp from a nonempty pool (spec section 4.2 popMin).  The spec
leaves the tie order between equal timestamps unspecified; this model
returns the earliest-inserted among the minimal ones. -/
def popMinAux (p : Packet) : List Packet → Packet × List Packet
  | [] => (p, [])
  | q :: rest =>
    if q.timestamp < p.timestamp then
      let r := popMinAux q rest
      (r.1, p :: r.2)
    else
      let r := popMinAux p rest
      (r.1, q :: r.2)

/-- Modelled from the spec: popMin of spec section 4.2, none on an empty
heap. -/
def heapPop : List Packet → Option (Packet × List Packet)
  | [] => none
  | p :: rest => some (popMinAux p rest)

/-- Modelled from the spec: peekMinTimestamp of spec section 4.2, as used
at line 112 of src/main.go where earliestHeapTime stays 0 when the heap
is empty. -/
def heapMinTs : List Packet → Int
  | [] => 0
  | [p] => p.timestamp
  | p :: q :: rest => min p.timestamp (heapMinTs (q :: rest))

/-! Basic facts about the heap model. -/

theorem popMinAux_perm (p : Packet) (l : List Packet) :
    List.Perm ((popMinAux p l).1 :: (popMinAux p l).2) (p :: l) := by
  induction l generalizing p with
  | nil => simp [popMinAux]
  | cons q rest ih =>
    simp only [popMinAux]
    by_cases hq : q.timestamp < p.timestamp
    · simp only [if_pos hq]
      exact List.Perm.trans (List.Perm.swap p (popMinAux q rest).1 (popMinAux q rest).2)
        (List.Perm.trans ((ih q).cons p) (List.Perm.refl _))
    · simp only [if_neg hq]
      exact List.Perm.trans (List.Perm.swap q (popMinAux p rest).1 (popMinAux p rest).2)
        (List.Perm.trans ((ih p).cons q) (List.Perm.swap p q rest))

theorem popMinAux_min (p : Packet) (l : List Packet) :
    (popMinAux p l).1.timestamp ≤ p.timestamp ∧
      ∀ q ∈ l, (popMinAux p l).1.timestamp ≤ q.timestamp := by
  induction l generalizing p with
  | nil => simp [popMinAux]
  | cons q rest ih =>
    simp only [popMinAux]
    by_cases hq : q.timestamp < p.timestamp
    · simp only [if_pos hq]
      refine ⟨le_trans (ih q).1 (le_of_lt hq), ?_⟩
      intro x hx
      rcases List.mem_cons.mp hx with hx | hx
      · rw [hx]; exact (ih q).1
      · exact (ih q).2 x hx
    · simp only [if_neg hq]
      refine ⟨(ih p).1, ?_⟩
      intro x hx
      rcases List.mem_cons.mp hx with hx | hx
      · rw [hx]; exact le_trans (ih p).1 (le_of_not_lt hq)
      · exact (ih p).2 x hx

theorem heapPop_perm {h : List Packet} {p : Packet} {h' : List Packet}
    (hp : heapPop h = some (p, h')) : List.Perm h (p :: h') := by
  cases h with
  | nil => simp [heapPop] at hp
  | cons q rest =>
    simp only [heapPop, Option.some.injEq] at hp
    have hperm := popMinAux_perm q rest
    rw [show (popMinAux q rest).1 = p by rw [hp],
      show (popMinAux q rest).2 = h' by rw [hp]] at hperm
    exact hperm.symm

theorem heapPop_min {h : List Packet} {p : Packet} {h' : List Packet}
    (hp : heapPop h = some (p, h')) : ∀ q ∈ h', p.timestamp ≤ q.timestamp := by
  cases h with
  | nil => simp [heapPop] at hp
  | cons x rest =>
    simp only [heapPop, Option.some.injEq] at hp
    intro q hq
    have hperm := popMinAux_perm x rest
    have hmin := popMinAux_min x rest
    rw [show (popMinAux x rest).1 = p by rw [hp]] at hperm hmin
    rw [show (popMinAux x rest).2 = h' by rw [hp]] at hperm
    have hqmem : q ∈ x :: rest := hperm.subset (List.mem_cons_of_mem p hq)
    rcases List.mem_cons.mp hqmem with hx | hx
    · rw [hx]; exact hmin.1
    · exact hmin.2 q hx

theorem heapPop_none {h : List Packet} (hp : heapPop h = none) : h = [] := by
  cases h with
  | nil => rfl
  | cons q rest => simp [heapPop] at hp

theorem heapPop_length {h : List Packet} {p : Packet} {h' : List Packet}
    (hp : heapPop h = some (p, h')) : h.length = h'.length + 1 := by
  have hlen := (heapPop_perm hp).length_eq
  simpa using hlen

theorem heapMinTs_le (h : List Packet) : ∀ q ∈ h, heapMinTs h ≤ q.timestamp := by
  induction h with
  | nil => simp
  | cons p rest ih =>
    intro q hq
    cases rest with
    | nil =>
      have hq' : q = p := by simpa using hq
      simp [heapMinTs, hq']
    | cons r rs =>
      simp only [heapMinTs]
      rcases List.mem_cons.mp hq with hq | hq
      · rw [hq]; exact min_le_left _ _
      · exact le_trans (min_le_right _ _) (ih q hq)

/-! Timestamps of the decodable records of a source, and the predicates
used as hypotheses of the ordering and counting claims. -/

/-- Timestamps of the decodable records of a source, in stream order. -/
def tsList : List ReadItem → List Int
  | [] => []
  | ReadItem.ok ts _ :: rest => ts :: tsList rest
  | ReadItem.decodeError :: rest => tsList rest

/-- A source is time-ordered: the timestamps of its decodable records are
pairwise non-decreasing in stream order. -/
def itemsSorted (s : List ReadItem) : Prop := List.Pairwise (· ≤ ·) (tsList s)

instance (s : List ReadItem) : Decidable (itemsSorted s) :=
  inferInstanceAs (Decidable (List.Pairwise _ _))

/-- Check that one read result is a decodable record with nonempty
payload. -/
def cleanItem : ReadItem → Bool
  | ReadItem.ok _ data => !data.isEmpty
  | ReadItem.decodeError => false

/-- A valid anomaly-free source: every item decodes and carries a
nonempty payload. -/
def cleanItems (s : List ReadItem) : Prop := ∀ it ∈ s, cleanItem it = true

instance (s : List ReadItem) : Decidable (cleanItems s) :=
  inferInstanceAs (Decidable (∀ it ∈ s, _))

theorem oneHour_nonneg : (0 : Int) ≤ oneHour := by decide

/-! Facts about readNext. -/

theorem readNext_none {p : Int} {i : Bool} {s r : List ReadItem}
    (h : readNext p i s = (none, r)) : r = [] := by
  induction s with
  | nil =>
    injection h with h1 h2
    exact h2.symm
  | cons a rest ih =>
    cases a with
    | decodeError => exact ih (by simpa [readNext] using h)
    | ok ts data =>
      by_cases h1 : i = false ∧ ts + oneHour < p
      · exact ih (by simpa [readNext, if_pos h1] using h)
      · by_cases h2 : data = []
        · exact ih (by simpa [readNext, if_neg h1, if_pos h2] using h)
        · simp [readNext, if_neg h1, if_neg h2] at h

theorem readNext_suffix (p : Int) (i : Bool) (s : List ReadItem) :
    (readNext p i s).2 <:+ s := by
  induction s with
  | nil => simp [readNext]
  | cons a rest ih =>
    have hsuf : ∀ r : List ReadItem, r <:+ rest → r <:+ a :: rest := by
      intro r hr
      exact hr.trans (List.suffix_cons a rest)
    cases a with
    | decodeError => exact hsuf _ (by simpa [readNext] using ih)
    | ok ts data =>
      by_cases h1 : i = false ∧ ts + oneHour < p
      · simpa [readNext, if_pos h1] using hsuf _ ih
      · by_cases h2 : data = []
        · simpa [readNext, if_neg h1, if_pos h2] using hsuf _ ih
        · simp only [readNext, if_neg h1, if_neg h2]
          exact List.suffix_cons _ rest

theorem readNext_some_length {p : Int} {i : Bool} {s r : List ReadItem}
    {x : Int × Payload} (h : readNext p i s = (some x, r)) :
    r.length < s.length := by
  induction s with
  | nil => simp [readNext] at h
  | cons a rest ih =>
    cases a with
    | decodeError =>
      have := ih (by simpa [readNext] using h)
      simpa using Nat.lt_succ_of_lt this
    | ok ts data =>
      by_cases h1 : i = false ∧ ts + oneHour < p
      · have := ih (by simpa [readNext, if_pos h1] using h)
        simpa using Nat.lt_succ_of_lt this
      · by_cases h2 : data = []
        · have := ih (by simpa [readNext, if_neg h1, if_pos h2] using h)
          simpa using Nat.lt_succ_of_lt this
        · simp only [readNext, if_neg h1, if_neg h2, Prod.mk.injEq] at h
          rw [← h.2]
          simp

theorem readNext_some_data {p : Int} {i : Bool} {s r : List ReadItem}
    {ts : Int} {d : Payload} (h : readNext p i s = (some (ts, d), r)) :
    d ≠ [] := by
  induction s with
  | nil => simp [readNext] at h
  | cons a rest ih =>
    cases a with
    | decodeError => exact ih (by simpa [readNext] using h)
    | ok ts' data =>
      by_cases h1 : i = false ∧ ts' + oneHour < p
      · exact ih (by simpa [readNext, if_pos h1] using h)
      · by_cases h2 : data = []
        · exact ih (by simpa [readNext, if_neg h1, if_pos h2] using h)
        · simp only [readNext, if_neg h1, if_neg h2, Prod.mk.injEq,
            Option.some.injEq] at h
          rw [← h.1.2]
          exact h2

theorem readNext_some_tol {p : Int} {s r : List ReadItem}
    {ts : Int} {d : Payload} (h : readNext p false s = (some (ts, d), r)) :
    p ≤ ts + oneHour := by
  induction s with
  | nil => simp [readNext] at h
  | cons a rest ih =>
    cases a with
    | decodeError => exact ih (by simpa [readNext] using h)
    | ok ts' data =>
      by_cases h1 : ts' + oneHour < p
      · exact ih (by simpa [readNext, h1] using h)
      · by_cases h2 : data = []
        · exact ih (by simpa [readNext, h1, h2] using h)
        · simp only [readNext, h1, h2, and_false, false_and, if_false, ite_false,
            Prod.mk.injEq, Option.some.injEq, if_neg, and_self] at h
          have hts : ts' = ts := h.1.1
          rw [← hts]
          exact le_of_not_lt h1

/-- The timestamp returned by readNext belongs to the timestamps of the
source, and every remaining timestamp is at least as large when the
source is time-ordered. -/
theorem readNext_some_sorted {p : Int} {i : Bool} {s r : List ReadItem}
    {ts : Int} {d : Payload} (hs : itemsSorted s)
    (h : readNext p i s = (some (ts, d), r)) :
    itemsSorted r ∧ ∀ t ∈ tsList r, ts ≤ t := by
  induction s with
  | nil => simp [readNext] at h
  | cons a rest ih =>
    cases a with
    | decodeError =>
      exact ih (by simpa [itemsSorted, tsList] using hs) (by simpa [readNext] using h)
    | ok ts' data =>
      have hs' : itemsSorted rest ∧ ∀ t ∈ tsList rest, ts' ≤ t := by
        have := hs
        simp only [itemsSorted, tsList, List.pairwise_cons] at this
        exact ⟨this.2, this.1⟩
      by_cases h1 : i = false ∧ ts' + oneHour < p
      · exact ih hs'.1 (by simpa [readNext, if_pos h1] using h)
      · by_cases h2 : data = []
        · exact ih hs'.1 (by simpa [readNext, if_neg h1, if_pos h2] using h)
        · simp only [readNext, if_neg h1, if_neg h2, Prod.mk.injEq,
            Option.some.injEq] at h
          rw [← h.2, ← h.1.1]
          exact hs'

/-- Whatever lower bound holds for all timestamps of the source holds for
the timestamp readNext returns. -/
theorem readNext_some_ge {p b : Int} {i : Bool} {s r : List ReadItem}
    {ts : Int} {d : Payload} (hb : ∀ t ∈ tsList s, b ≤ t)
    (h : readNext p i s = (some (ts, d), r)) : b ≤ ts := by
  induction s with
  | nil => simp [readNext] at h
  | cons a rest ih =>
    cases a with
    | decodeError =>
      exact ih (by
        intro t ht
        exact hb t (by simpa [tsList] using ht)) (by simpa [readNext] using h)
    | ok ts' data =>
      have hbrest : ∀ t ∈ tsList rest, b ≤ t := by
        intro t ht
        exact hb t (by simp [tsList, ht])
      by_cases h1 : i = false ∧ ts' + oneHour < p
      · exact ih hbrest (by simpa [readNext, if_pos h1] using h)
      · by_cases h2 : data = []
        · exact ih hbrest (by simpa [readNext, if_neg h1, if_pos h2] using h)
        · simp only [readNext, if_neg h1, if_neg h2, Prod.mk.injEq,
            Option.some.injEq] at h
          rw [← h.1.1]
          exact hb ts' (by simp [tsList])

/-- During an initialization read the baseline timestamp is never
consulted: the result of readNext is independent of it. -/
theorem readNext_init_pt (a b : Int) (s : List ReadItem) :
    readNext a true s = readNext b true s := by
  induction s with
  | nil => simp [readNext]
  | cons a rest ih =>
    cases a with
    | decodeError => simpa [readNext] using ih
    | ok ts data =>
      by_cases h2 : data = []
      · simpa [readNext, if_pos h2] using ih
      · simp [readNext, if_neg h2]

/-- A clean record at the head of the source whose tolerance check passes
is returned at once, consuming exactly one item. -/
theorem readNext_cons_ok_accept {p : Int} {i : Bool} {ts : Int} {d : Payload}
    {rest : List ReadItem} (hd : d ≠ []) (htol : ¬ (i = false ∧ ts + oneHour < p)) :
    readNext p i (ReadItem.ok ts d :: rest) = (some (ts, d), rest) := by
  simp [readNext, if_neg htol, if_neg hd]

/-- Suffixes of a source keep only later timestamps. -/
theorem tsList_suffix {s r : List ReadItem} (h : r <:+ s) :
    tsList r <:+ tsList s := by
  induction s with
  | nil =>
    have hnil : r = [] := List.eq_nil_of_suffix_nil h
    simp [hnil]
  | cons a rest ih =>
    rcases List.suffix_cons_iff.mp h with h | h
    · rw [h]
    · have hsub := ih h
      cases a with
      | decodeError => simpa [tsList] using hsub
      | ok ts data => exact hsub.trans (by simp [tsList])

theorem itemsSorted_suffix {s r : List ReadItem} (hs : itemsSorted s)
    (h : r <:+ s) : itemsSorted r :=
  hs.sublist (tsList_suffix h).sublist

/-! The merge engine.  joincap pops the globally earliest packet, writes
it, then keeps reading from the same source while the timestamps stay at
or below the heap minimum observed right after the pop. -/

/-- Result of one run of the inner loop of joincap (lines 116 to 136 of
src/main.go): the packets written directly, the value of
previousTimestamp afterwards, the unread remainder of the source, and
the packet pushed to the heap when the loop ended on a later timestamp
(none when the source reached end of stream). -/
structure InnerResult where
  out : List Packet
  prevOut : Int
  rest : List ReadItem
  pushed : Option Packet
deriving DecidableEq, Repr

/-- Translation of the inner loop of joincap: read the next packet from
the source of the last written packet; on end of stream stop; when the
new timestamp is at most the threshold (earliestHeapTime) write it and
continue, otherwise push it to the heap and stop.  Writing a packet sets
previousTimestamp to its timestamp (the write function of src/main.go). -/
def innerLoop (srcIdx : Nat) (threshold : Int) (previousTimestamp : Int)
    (rest : List ReadItem) : InnerResult :=
  match hr : readNext previousTimestamp false rest with
  | (none, rest') => ⟨[], previousTimestamp, rest', none⟩
  | (some (ts, data), rest') =>
    if ts ≤ threshold then
      let r := innerLoop srcIdx threshold ts rest'
      ⟨⟨ts, data, srcIdx⟩ :: r.out, r.prevOut, r.rest, r.pushed⟩
    else
      ⟨[], previousTimestamp, rest', some ⟨ts, data, srcIdx⟩⟩
termination_by rest.length
decreasing_by
  exact readNext_some_length hr

/-- Unfolding equation of innerLoop: end of stream. -/
theorem innerLoop_eq_none {p : Int} {rest rest' : List ReadItem} (srcIdx : Nat)
    (threshold : Int) (hr : readNext p false rest = (none, rest')) :
    innerLoop srcIdx threshold p rest = ⟨[], p, rest', none⟩ := by
  rw [innerLoop]
  split
  · rename_i rest'' heq
    rw [hr] at heq
    injection heq with h1 h2
    rw [h2]
  · rename_i ts data rest'' heq
    rw [hr] at heq
    injection heq with h1 h2
    exact absurd h1 (by simp)

/-- Unfolding equation of innerLoop: accepted packet at or below the
threshold is written and the loop continues. -/
theorem innerLoop_eq_write {p ts : Int} {data : Payload} {rest rest' : List ReadItem}
    (srcIdx : Nat) (threshold : Int)
    (hr : readNext p false rest = (some (ts, data), rest')) (hle : ts ≤ threshold) :
    innerLoop srcIdx threshold p rest =
      ⟨⟨ts, data, srcIdx⟩ :: (innerLoop srcIdx threshold ts rest').out,
        (innerLoop srcIdx threshold ts rest').prevOut,
        (innerLoop srcIdx threshold ts rest').rest,
        (innerLoop srcIdx threshold ts rest').pushed⟩ := by
  rw [innerLoop]
  split
  · rename_i rest'' heq
    rw [hr] at heq
    injection heq with h1 h2
    exact absurd h1 (by simp)
  · rename_i ts' data' rest'' heq
    rw [hr] at heq
    injection heq with h1 h2
    injection h1 with h1
    injection h1 with hts hdata
    subst hts hdata h2
    rw [if_pos hle]

/-- Unfolding equation of innerLoop: accepted packet above the threshold
is pushed to the heap and the loop stops. -/
theorem innerLoop_eq_push {p ts : Int} {data : Payload} {rest rest' : List ReadItem}
    (srcIdx : Nat) (threshold : Int)
    (hr : readNext p false rest = (some (ts, data), rest')) (hgt : ¬ ts ≤ threshold) :
    innerLoop srcIdx threshold p rest = ⟨[], p, rest', some ⟨ts, data, srcIdx⟩⟩ := by
  rw [innerLoop]
  split
  · rename_i rest'' heq
    rw [hr] at heq
    injection heq with h1 h2
    exact absurd h1 (by simp)
  · rename_i ts' data' rest'' heq
    rw [hr] at heq
    injection heq with h1 h2
    injection h1 with h1
    injection h1 with hts hdata
    subst hts hdata h2
    rw [if_neg hgt]

theorem innerLoop_suffix (srcIdx : Nat) (threshold p : Int) (rest : List ReadItem) :
    (innerLoop srcIdx threshold p rest).rest <:+ rest := by
  refine innerLoop.induct srcIdx threshold
    (fun p rest => (innerLoop srcIdx threshold p rest).rest <:+ rest) ?_ ?_ ?_ p rest
  · intro p rest rest' hr
    rw [innerLoop_eq_none srcIdx threshold hr]
    have hsuf := readNext_suffix p false rest
    rw [hr] at hsuf
    exact hsuf
  · intro p rest ts data rest' hr hle ih
    rw [innerLoop_eq_write srcIdx threshold hr hle]
    have hsuf := readNext_suffix p false rest
    rw [hr] at hsuf
    exact ih.trans hsuf
  · intro p rest ts data rest' hr hgt
    rw [innerLoop_eq_push srcIdx threshold hr hgt]
    have hsuf := readNext_suffix p false rest
    rw [hr] at hsuf
    exact hsuf

theorem innerLoop_rest_le (srcIdx : Nat) (threshold p : Int) (rest : List ReadItem) :
    (innerLoop srcIdx threshold p rest).rest.length ≤ rest.length :=
  (innerLoop_suffix srcIdx threshold p rest).length_le

theorem innerLoop_pushed_lt {srcIdx : Nat} {threshold : Int} (p : Int) (rest : List ReadItem)
    (hq : (innerLoop srcIdx threshold p rest).pushed.isSome) :
    (innerLoop srcIdx threshold p rest).rest.length < rest.length := by
  refine innerLoop.induct srcIdx threshold
    (fun p rest => (innerLoop srcIdx threshold p rest).pushed.isSome →
      (innerLoop srcIdx threshold p rest).rest.length < rest.length) ?_ ?_ ?_ p rest hq
  · intro p rest rest' hr
    rw [innerLoop_eq_none srcIdx threshold hr]
    intro hcontra
    simp at hcontra
  · intro p rest ts data rest' hr hle ih
    rw [innerLoop_eq_write srcIdx threshold hr hle]
    intro hps
    exact lt_trans (ih hps) (readNext_some_length hr)
  · intro p rest ts data rest' hr hgt
    rw [innerLoop_eq_push srcIdx threshold hr hgt]
    intro _
    exact readNext_some_length hr

theorem innerLoop_pushed_src {srcIdx : Nat} {threshold : Int} (p : Int) (rest : List ReadItem)
    {q : Packet} (hq : (innerLoop srcIdx threshold p rest).pushed = some q) :
    q.src = srcIdx := by
  refine innerLoop.induct srcIdx threshold
    (fun p rest => (innerLoop srcIdx threshold p rest).pushed = some q → q.src = srcIdx)
    ?_ ?_ ?_ p rest hq
  · intro p rest rest' hr
    rw [innerLoop_eq_none srcIdx threshold hr]
    intro hcontra
    simp at hcontra
  · intro p rest ts data rest' hr hle ih
    rw [innerLoop_eq_write srcIdx threshold hr hle]
    exact ih
  · intro p rest ts data rest' hr hgt
    rw [innerLoop_eq_push srcIdx threshold hr hgt]
    intro hsome
    injection hsome with hsome
    rw [← hsome]

/-- The value of previousTimestamp after the inner loop is the timestamp
of the last packet it wrote, or the incoming value when it wrote none. -/
theorem innerLoop_prevOut (srcIdx : Nat) (threshold p : Int) (rest : List ReadItem) :
    (innerLoop srcIdx threshold p rest).prevOut =
      ((innerLoop srcIdx threshold p rest).out.map Packet.timestamp).getLastD p := by
  refine innerLoop.induct srcIdx threshold
    (fun p rest => (innerLoop srcIdx threshold p rest).prevOut =
      ((innerLoop srcIdx threshold p rest).out.map Packet.timestamp).getLastD p)
    ?_ ?_ ?_ p rest
  · intro p rest rest' hr
    rw [innerLoop_eq_none srcIdx threshold hr]
    rfl
  · intro p rest ts data rest' hr hle ih
    rw [innerLoop_eq_write srcIdx threshold hr hle]
    simp only [List.map_cons, List.getLastD_cons]
    exact ih
  · intro p rest ts data rest' hr hgt
    rw [innerLoop_eq_push srcIdx threshold hr hgt]
    rfl

/-- When the inner loop leaves unread items in its source it necessarily
ended by pushing a packet for that source to the heap. -/
theorem innerLoop_active {srcIdx : Nat} {threshold : Int} (p : Int) (rest : List ReadItem)
    (hne : (innerLoop srcIdx threshold p rest).rest ≠ []) :
    (innerLoop srcIdx threshold p rest).pushed.isSome := by
  refine innerLoop.induct srcIdx threshold
    (fun p rest => (innerLoop srcIdx threshold p rest).rest ≠ [] →
      (innerLoop srcIdx threshold p rest).pushed.isSome) ?_ ?_ ?_ p rest hne
  · intro p rest rest' hr
    rw [innerLoop_eq_none srcIdx threshold hr]
    intro hcontra
    exact absurd (readNext_none hr) hcontra
  · intro p rest ts data rest' hr hle ih
    rw [innerLoop_eq_write srcIdx threshold hr hle]
    exact ih
  · intro p rest ts data rest' hr hgt
    rw [innerLoop_eq_push srcIdx threshold hr hgt]
    intro _
    rfl

/-- Packet order by timestamp, the relation of the ordering guarantee. -/
def pktLE (a b : Packet) : Prop := a.timestamp ≤ b.timestamp

instance (a b : Packet) : Decidable (pktLE a b) := inferInstanceAs (Decidable (_ ≤ _))

/-- Number of packets staged by the inner loop result: zero or one. -/
def pushCount : Option Packet → Nat
  | none => 0
  | some _ => 1

/-- A clean time-ordered source read under a matching baseline yields no
end of stream before the end: readNext returning none means the source
was already empty. -/
theorem readNext_clean_none {p : Int} {rest rest' : List ReadItem}
    (hc : cleanItems rest) (hge : ∀ t ∈ tsList rest, p ≤ t)
    (hr : readNext p false rest = (none, rest')) : rest = [] := by
  cases rest with
  | nil => rfl
  | cons a r =>
    cases a with
    | decodeError =>
      exact absurd (hc ReadItem.decodeError (List.mem_cons_self _ _)) (by simp [cleanItem])
    | ok ts d =>
      have hd : d ≠ [] := by
        have := hc _ (List.mem_cons_self _ _)
        simpa [cleanItem, List.isEmpty_iff] using this
      have hts : p ≤ ts := hge ts (by simp [tsList])
      have htol : ¬ ((false : Bool) = false ∧ ts + oneHour < p) := by
        rintro ⟨-, hlt⟩
        have : ts ≤ ts + oneHour := le_add_of_nonneg_right oneHour_nonneg
        omega
      rw [readNext_cons_ok_accept hd htol] at hr
      exact absurd hr (by simp)

/-- A clean time-ordered source read under a matching baseline is
consumed one record per accepted read: nothing is skipped. -/
theorem readNext_clean_some {p ts : Int} {d : Payload} {rest rest' : List ReadItem}
    (hc : cleanItems rest) (hge : ∀ t ∈ tsList rest, p ≤ t)
    (hr : readNext p false rest = (some (ts, d), rest')) :
    rest = ReadItem.ok ts d :: rest' := by
  cases rest with
  | nil => exact absurd hr (by simp [readNext])
  | cons a r =>
    cases a with
    | decodeError =>
      exact absurd (hc ReadItem.decodeError (List.mem_cons_self _ _)) (by simp [cleanItem])
    | ok ts0 d0 =>
      have hd : d0 ≠ [] := by
        have := hc _ (List.mem_cons_self _ _)
        simpa [cleanItem, List.isEmpty_iff] using this
      have hts : p ≤ ts0 := hge ts0 (by simp [tsList])
      have htol : ¬ ((false : Bool) = false ∧ ts0 + oneHour < p) := by
        rintro ⟨-, hlt⟩
        have : ts0 ≤ ts0 + oneHour := le_add_of_nonneg_right oneHour_nonneg
        omega
      rw [readNext_cons_ok_accept hd htol] at hr
      injection hr with h1 h2
      injection h1 with h1
      injection h1 with hts0 hd0
      rw [hts0, hd0, h2]

/-- Ordering specification of the inner loop over a time-ordered source
whose timestamps all dominate the incoming baseline. -/
theorem innerLoop_sorted {srcIdx : Nat} {threshold : Int} (p : Int) (rest : List ReadItem)
    (hs : itemsSorted rest) (hge : ∀ t ∈ tsList rest, p ≤ t) :
    (∀ q ∈ (innerLoop srcIdx threshold p rest).out,
        p ≤ q.timestamp ∧ q.timestamp ≤ threshold) ∧
    List.Pairwise pktLE (innerLoop srcIdx threshold p rest).out ∧
    p ≤ (innerLoop srcIdx threshold p rest).prevOut ∧
    (∀ q ∈ (innerLoop srcIdx threshold p rest).out,
        q.timestamp ≤ (innerLoop srcIdx threshold p rest).prevOut) ∧
    itemsSorted (innerLoop srcIdx threshold p rest).rest ∧
    (∀ t ∈ tsList (innerLoop srcIdx threshold p rest).rest,
        (innerLoop srcIdx threshold p rest).prevOut ≤ t) ∧
    (∀ q, (innerLoop srcIdx threshold p rest).pushed = some q →
        threshold < q.timestamp ∧
        (innerLoop srcIdx threshold p rest).prevOut ≤ q.timestamp ∧
        ∀ t ∈ tsList (innerLoop srcIdx threshold p rest).rest, q.timestamp ≤ t) ∧
    ((innerLoop srcIdx threshold p rest).prevOut = p ∨
        ∃ q ∈ (innerLoop srcIdx threshold p rest).out,
          (innerLoop srcIdx threshold p rest).prevOut = q.timestamp) := by
  refine innerLoop.induct srcIdx threshold
    (fun p rest => itemsSorted rest → (∀ t ∈ tsList rest, p ≤ t) →
      (∀ q ∈ (innerLoop srcIdx threshold p rest).out,
          p ≤ q.timestamp ∧ q.timestamp ≤ threshold) ∧
      List.Pairwise pktLE (innerLoop srcIdx threshold p rest).out ∧
      p ≤ (innerLoop srcIdx threshold p rest).prevOut ∧
      (∀ q ∈ (innerLoop srcIdx threshold p rest).out,
          q.timestamp ≤ (innerLoop srcIdx threshold p rest).prevOut) ∧
      itemsSorted (innerLoop srcIdx threshold p rest).rest ∧
      (∀ t ∈ tsList (innerLoop srcIdx threshold p rest).rest,
          (innerLoop srcIdx threshold p rest).prevOut ≤ t) ∧
      (∀ q, (innerLoop srcIdx threshold p rest).pushed = some q →
          threshold < q.timestamp ∧
          (innerLoop srcIdx threshold p rest).prevOut ≤ q.timestamp ∧
          ∀ t ∈ tsList (innerLoop srcIdx threshold p rest).rest, q.timestamp ≤ t) ∧
      ((innerLoop srcIdx threshold p rest).prevOut = p ∨
          ∃ q ∈ (innerLoop srcIdx threshold p rest).out,
            (innerLoop srcIdx threshold p rest).prevOut = q.timestamp))
    ?_ ?_ ?_ p rest hs hge
  · intro p rest rest' hr hs0 hge0
    have hnil : rest' = [] := readNext_none hr
    rw [innerLoop_eq_none srcIdx threshold hr, hnil]
    refine ⟨by simp, by simp, le_refl _, by simp, by simp [itemsSorted, tsList],
      by simp [tsList], by simp, ?_⟩
    exact Or.inl rfl
  · intro p rest ts data rest' hr hle ih hs0 hge0
    have hsr := readNext_some_sorted hs0 hr
    have hpts : p ≤ ts := readNext_some_ge hge0 hr
    obtain ⟨iha, ihb, ihc, ihd, ihe, ihf, ihg, ihh⟩ := ih hsr.1 hsr.2
    rw [innerLoop_eq_write srcIdx threshold hr hle]
    simp only
    refine ⟨?_, ?_, le_trans hpts ihc, ?_, ihe, ihf, ihg, ?_⟩
    · intro q hq
      rcases List.mem_cons.mp hq with hq | hq
      · rw [hq]
        exact ⟨hpts, hle⟩
      · have := iha q hq
        exact ⟨le_trans hpts this.1, this.2⟩
    · rw [List.pairwise_cons]
      refine ⟨?_, ihb⟩
      intro q hq
      exact (iha q hq).1
    · intro q hq
      rcases List.mem_cons.mp hq with hq | hq
      · rw [hq]
        exact ihc
      · exact ihd q hq
    · rcases ihh with hcase | ⟨q, hq, hcase⟩
      · exact Or.inr ⟨⟨ts, data, srcIdx⟩, List.mem_cons_self _ _, hcase⟩
      · exact Or.inr ⟨q, List.mem_cons_of_mem _ hq, hcase⟩
  · intro p rest ts data rest' hr hgt hs0 hge0
    have hsr := readNext_some_sorted hs0 hr
    have hpts : p ≤ ts := readNext_some_ge hge0 hr
    rw [innerLoop_eq_push srcIdx threshold hr hgt]
    simp only
    refine ⟨by simp, by simp, le_refl _, by simp, hsr.1, ?_, ?_, ?_⟩
    · intro t ht
      exact le_trans hpts (hsr.2 t ht)
    · intro q hq
      injection hq with hq
      rw [← hq]
      exact ⟨lt_of_not_le hgt, hpts, hsr.2⟩
    · exact Or.inl trivial

/-- Counting specification of the inner loop over a clean time-ordered
source: every consumed item is either written or pushed, none is
dropped. -/
theorem innerLoop_count {srcIdx : Nat} {threshold : Int} (p : Int) (rest : List ReadItem)
    (hc : cleanItems rest) (hs : itemsSorted rest) (hge : ∀ t ∈ tsList rest, p ≤ t) :
    (innerLoop srcIdx threshold p rest).out.length +
        pushCount (innerLoop srcIdx threshold p rest).pushed +
        (innerLoop srcIdx threshold p rest).rest.length = rest.length ∧
    cleanItems (innerLoop srcIdx threshold p rest).rest := by
  refine innerLoop.induct srcIdx threshold
    (fun p rest => cleanItems rest → itemsSorted rest → (∀ t ∈ tsList rest, p ≤ t) →
      (innerLoop srcIdx threshold p rest).out.length +
          pushCount (innerLoop srcIdx threshold p rest).pushed +
          (innerLoop srcIdx threshold p rest).rest.length = rest.length ∧
      cleanItems (innerLoop srcIdx threshold p rest).rest)
    ?_ ?_ ?_ p rest hc hs hge
  · intro p rest rest' hr hc0 hs0 hge0
    have hnil : rest = [] := readNext_clean_none hc0 hge0 hr
    have hnil' : rest' = [] := readNext_none hr
    rw [innerLoop_eq_none srcIdx threshold hr, hnil, hnil']
    exact ⟨rfl, by simp [cleanItems]⟩
  · intro p rest ts data rest' hr hle ih hc0 hs0 hge0
    have hcons : rest = ReadItem.ok ts data :: rest' := readNext_clean_some hc0 hge0 hr
    have hc' : cleanItems rest' := by
      intro a ha
      exact hc0 a (by rw [hcons]; exact List.mem_cons_of_mem _ ha)
    have hsr := readNext_some_sorted hs0 hr
    obtain ⟨ih1, ih2⟩ := ih hc' hsr.1 hsr.2
    rw [innerLoop_eq_write srcIdx threshold hr hle]
    refine ⟨?_, ih2⟩
    simp only [List.length_cons]
    rw [hcons]
    simp only [List.length_cons]
    omega
  · intro p rest ts data rest' hr hgt hc0 hs0 hge0
    have hcons : rest = ReadItem.ok ts data :: rest' := readNext_clean_some hc0 hge0 hr
    have hc' : cleanItems rest' := by
      intro a ha
      exact hc0 a (by rw [hcons]; exact List.mem_cons_of_mem _ ha)
    rw [innerLoop_eq_push srcIdx threshold hr hgt]
    refine ⟨?_, hc'⟩
    rw [hcons]
    simp only [pushCount, List.length_cons, List.length_nil]
    omega

/-! The outer loop of joincap.  The termination measure is the total
number of unread items plus the heap size. -/

/-- Sum of source lengths does not grow when one source is replaced by a
shorter remainder. -/
theorem sum_map_length_set_le (l : List (List ReadItem)) (i : Nat) (x : List ReadItem)
    (hx : x.length ≤ (l.getD i []).length) :
    ((l.set i x).map List.length).sum ≤ (l.map List.length).sum := by
  induction l generalizing i with
  | nil => simp
  | cons a l ih =>
    cases i with
    | zero =>
      simp only [List.set_cons_zero, List.map_cons, List.sum_cons]
      have hx0 : x.length ≤ a.length := by simpa using hx
      omega
    | succ i =>
      simp only [List.set_cons_succ, List.map_cons, List.sum_cons]
      have hx0 : x.length ≤ (l.getD i []).length := by simpa using hx
      have := ih i hx0
      omega

/-- Sum of source lengths strictly shrinks when one source is replaced
by a strictly shorter remainder. -/
theorem sum_map_length_set_lt (l : List (List ReadItem)) (i : Nat) (x : List ReadItem)
    (hx : x.length < (l.getD i []).length) :
    ((l.set i x).map List.length).sum < (l.map List.length).sum := by
  induction l generalizing i with
  | nil =>
    simp only [List.getD_nil] at hx
    simp at hx
  | cons a l ih =>
    cases i with
    | zero =>
      simp only [List.set_cons_zero, List.map_cons, List.sum_cons]
      have hx0 : x.length < a.length := by simpa using hx
      omega
    | succ i =>
      simp only [List.set_cons_succ, List.map_cons, List.sum_cons]
      have hx0 : x.length < (l.getD i []).length := by simpa using hx
      have := ih i hx0
      omega

/-- Exact accounting of the replacement of one source by its remainder,
for indices inside the list. -/
theorem sum_map_length_set_eq (l : List (List ReadItem)) (i : Nat) (x : List ReadItem)
    (hi : i < l.length) :
    ((l.set i x).map List.length).sum + (l.getD i []).length =
      (l.map List.length).sum + x.length := by
  induction l generalizing i with
  | nil => simp at hi
  | cons a l ih =>
    cases i with
    | zero =>
      simp only [List.set_cons_zero, List.map_cons, List.sum_cons, List.getD_cons_zero]
      omega
    | succ i =>
      simp only [List.set_cons_succ, List.map_cons, List.sum_cons, List.getD_cons_succ]
      have := ih i (by simpa using hi)
      omega

/-- Push of the packet staged by the inner loop, when there is one
(line 134 of src/main.go). -/
def pushOpt (h' : List Packet) : Option Packet → List Packet
  | none => h'
  | some q => heapPush h' q

/-- Observable result of the outer loop of joincap: the packets handed
to write in emission order, the final value of previousTimestamp, and
the heap content at the start of every outer iteration (the last entry
is the empty heap that stops the loop). -/
structure MergeResult where
  out : List Packet
  finalPrev : Int
  heaps : List (List Packet)
deriving DecidableEq, Repr

/-- Translation of the outer loop of joincap (lines 107 to 137 of
src/main.go): while the heap is nonempty, pop the earliest packet, write
it, record the new heap minimum as threshold, run the inner loop on the
source of the popped packet, then continue with the updated sources and
heap. -/
def mergeLoop (sources : List (List ReadItem)) (h : List Packet)
    (previousTimestamp : Int) : MergeResult :=
  match hp : heapPop h with
  | none => ⟨[], previousTimestamp, [h]⟩
  | some (p, h') =>
    let il := innerLoop p.src (heapMinTs h') p.timestamp (sources.getD p.src [])
    let r := mergeLoop (sources.set p.src il.rest) (pushOpt h' il.pushed) il.prevOut
    ⟨p :: il.out ++ r.out, r.finalPrev, h :: r.heaps⟩
termination_by (sources.map List.length).sum + h.length
decreasing_by
  have hlen := heapPop_length hp
  rcases hps : (innerLoop p.src (heapMinTs h') p.timestamp (sources.getD p.src [])).pushed
    with _ | q
  · have hle := sum_map_length_set_le sources p.src _
      (innerLoop_rest_le p.src (heapMinTs h') p.timestamp (sources.getD p.src []))
    simp only [hps, pushOpt]
    omega
  · have hlt := sum_map_length_set_lt sources p.src _
      (innerLoop_pushed_lt p.timestamp (sources.getD p.src []) (by rw [hps]; rfl))
    simp only [hps, pushOpt, heapPush, List.length_append, List.length_cons, List.length_nil]
    omega

/-- Unfolding equation of mergeLoop: empty heap stops the loop. -/
theorem mergeLoop_eq_none {sources : List (List ReadItem)} {h : List Packet}
    {p : Int} (hp : heapPop h = none) : mergeLoop sources h p = ⟨[], p, [h]⟩ := by
  rw [mergeLoop]
  split
  · rfl
  · rename_i p0 h' heq
    rw [hp] at heq
    exact absurd heq (by simp)

/-- Unfolding equation of mergeLoop: one outer iteration. -/
theorem mergeLoop_eq_step {sources : List (List ReadItem)} {h : List Packet}
    {p : Int} {p0 : Packet} {h' : List Packet} (hp : heapPop h = some (p0, h')) :
    mergeLoop sources h p =
      ⟨p0 :: (innerLoop p0.src (heapMinTs h') p0.timestamp (sources.getD p0.src [])).out ++
          (mergeLoop
            (sources.set p0.src
              (innerLoop p0.src (heapMinTs h') p0.timestamp (sources.getD p0.src [])).rest)
            (pushOpt h'
              (innerLoop p0.src (heapMinTs h') p0.timestamp (sources.getD p0.src [])).pushed)
            (innerLoop p0.src (heapMinTs h') p0.timestamp (sources.getD p0.src [])).prevOut).out,
        (mergeLoop
            (sources.set p0.src
              (innerLoop p0.src (heapMinTs h') p0.timestamp (sources.getD p0.src [])).rest)
            (pushOpt h'
              (innerLoop p0.src (heapMinTs h') p0.timestamp (sources.getD p0.src [])).pushed)
            (innerLoop p0.src (heapMinTs h') p0.timestamp (sources.getD p0.src [])).prevOut).finalPrev,
        h :: (mergeLoop
            (sources.set p0.src
              (innerLoop p0.src (heapMinTs h') p0.timestamp (sources.getD p0.src [])).rest)
            (pushOpt h'
              (innerLoop p0.src (heapMinTs h') p0.timestamp (sources.getD p0.src [])).pushed)
            (innerLoop p0.src (heapMinTs h') p0.timestamp (sources.getD p0.src [])).prevOut).heaps⟩ := by
  rw [mergeLoop]
  split
  · rename_i heq
    rw [hp] at heq
    exact absurd heq (by simp)
  · rename_i p1 h1 heq
    rw [hp] at heq
    injection heq with heq
    injection heq with heq1 heq2
    subst heq1 heq2
    rfl

/-- The first recorded heap snapshot is the incoming heap. -/
theorem mergeLoop_heaps_head (sources : List (List ReadItem)) (h : List Packet)
    (p : Int) : (mergeLoop sources h p).heaps.head? = some h := by
  rcases hp : heapPop h with _ | ⟨p0, h'⟩
  · rw [mergeLoop_eq_none hp]
    rfl
  · rw [mergeLoop_eq_step hp]
    rfl

/-- The emissions and heap snapshots of the outer loop do not depend on
the incoming value of previousTimestamp: the first pop overwrites it
before any non-initialization read consults it. -/
theorem mergeLoop_baseline_indep (sources : List (List ReadItem)) (h : List Packet)
    (a b : Int) :
    (mergeLoop sources h a).out = (mergeLoop sources h b).out ∧
      (mergeLoop sources h a).heaps = (mergeLoop sources h b).heaps := by
  rcases hp : heapPop h with _ | ⟨p0, h'⟩
  · rw [mergeLoop_eq_none hp, mergeLoop_eq_none hp]
    exact ⟨rfl, rfl⟩
  · rw [mergeLoop_eq_step hp, mergeLoop_eq_step hp]
    exact ⟨rfl, rfl⟩

/-- Helper: getLastD across an append threads the default through the
first part. -/
theorem getLastD_append (l1 l2 : List Int) (d : Int) :
    (l1 ++ l2).getLastD d = l2.getLastD (l1.getLastD d) := by
  induction l1 generalizing d with
  | nil => rfl
  | cons x l1 ih =>
    simp only [List.cons_append, List.getLastD_cons]
    exact ih x

/-- The final previousTimestamp of the outer loop is the timestamp of
the last emitted packet, or the incoming baseline when nothing was
emitted. -/
theorem mergeLoop_finalPrev (sources : List (List ReadItem)) (h : List Packet)
    (p : Int) :
    (mergeLoop sources h p).finalPrev =
      ((mergeLoop sources h p).out.map Packet.timestamp).getLastD p := by
  induction sources, h, p using mergeLoop.induct with
  | case1 sources h p hp =>
    rw [mergeLoop_eq_none hp]
    rfl
  | case2 sources h p p0 h' hp il ih =>
    rw [mergeLoop_eq_step hp]
    simp only [List.map_cons, List.map_append, List.getLastD_cons, getLastD_append]
    rw [← innerLoop_prevOut p0.src (heapMinTs h') p0.timestamp (sources.getD p0.src [])]
    exact ih

/-! Helper facts about indexed access to the source pool. -/

theorem getD_set_self (l : List (List ReadItem)) (i : Nat) (x : List ReadItem)
    (hi : i < l.length) : (l.set i x).getD i [] = x := by
  simp [List.getD_eq_getElem?_getD, List.getElem?_set_self, hi]

theorem getD_set_ne (l : List (List ReadItem)) {i j : Nat} (x : List ReadItem)
    (hij : i ≠ j) : (l.set i x).getD j [] = l.getD j [] := by
  simp [List.getD_eq_getElem?_getD, List.getElem?_set_ne hij]

theorem getD_mem_or_nil (l : List (List ReadItem)) (i : Nat) :
    l.getD i [] ∈ l ∨ l.getD i [] = [] := by
  induction l generalizing i with
  | nil => exact Or.inr rfl
  | cons a l ih =>
    cases i with
    | zero => exact Or.inl (by simp)
    | succ i =>
      simp only [List.getD_cons_succ]
      rcases ih i with hmem | hnil
      · exact Or.inl (List.mem_cons_of_mem _ hmem)
      · exact Or.inr hnil

/-- The replaced slot of the source pool still holds a suffix of the old
content whenever the replacement is such a suffix. -/
theorem getD_set_suffix (l : List (List ReadItem)) (i : Nat) {x : List ReadItem}
    (hx : x <:+ l.getD i []) : (l.set i x).getD i [] <:+ l.getD i [] := by
  by_cases hi : i < l.length
  · rw [getD_set_self l i x hi]
    exact hx
  · rw [List.set_eq_of_length_le (le_of_not_lt hi)]

theorem mem_pushOpt {h' : List Packet} {o : Option Packet} {q : Packet}
    (hq : q ∈ pushOpt h' o) : q ∈ h' ∨ o = some q := by
  cases o with
  | none => exact Or.inl hq
  | some qp =>
    rcases List.mem_append.mp hq with hq | hq
    · exact Or.inl hq
    · have hq2 : q = qp := by simpa using hq
      exact Or.inr (by rw [hq2])

/-- Ordering invariant of the outer loop: over time-ordered sources, with
every staged packet at or before everything left in its own source, the
emission sequence is pairwise ordered by timestamp, and any lower bound
on the staged packets bounds every emission. -/
theorem mergeLoop_sorted_spec (sources : List (List ReadItem)) (h : List Packet)
    (p : Int) (HS : ∀ s ∈ sources, itemsSorted s)
    (HL : ∀ q ∈ h, ∀ t ∈ tsList (sources.getD q.src []), q.timestamp ≤ t) :
    List.Pairwise pktLE (mergeLoop sources h p).out ∧
      ∀ b, (∀ q ∈ h, b ≤ q.timestamp) →
        ∀ q ∈ (mergeLoop sources h p).out, b ≤ q.timestamp := by
  induction sources, h, p using mergeLoop.induct with
  | case1 sources h p hp =>
    rw [mergeLoop_eq_none hp]
    exact ⟨List.Pairwise.nil, by intro b hb q hq; simp at hq⟩
  | case2 sources h p p0 h' hp il ih =>
    have hperm := heapPop_perm hp
    have hmin := heapPop_min hp
    have hp0mem : p0 ∈ h := hperm.symm.subset (List.mem_cons_self _ _)
    have hmem' : ∀ q ∈ h', q ∈ h := fun q hq =>
      hperm.symm.subset (List.mem_cons_of_mem _ hq)
    have hrs : itemsSorted (sources.getD p0.src []) := by
      rcases getD_mem_or_nil sources p0.src with hmem | hnil
      · exact HS _ hmem
      · rw [hnil]
        simp [itemsSorted, tsList]
    have hger : ∀ t ∈ tsList (sources.getD p0.src []), p0.timestamp ≤ t :=
      HL p0 hp0mem
    obtain ⟨ila, ilb, ilc, ild, ile, ilf, ilg, ilh⟩ :=
      @innerLoop_sorted p0.src (heapMinTs h') p0.timestamp (sources.getD p0.src [])
        hrs hger
    have HS' : ∀ s ∈ sources.set p0.src il.rest, itemsSorted s := by
      intro s hs
      rcases List.mem_or_eq_of_mem_set hs with hs | hs
      · exact HS s hs
      · rw [hs]
        exact ile
    have hsuffix : il.rest <:+ sources.getD p0.src [] :=
      innerLoop_suffix p0.src (heapMinTs h') p0.timestamp (sources.getD p0.src [])
    have hsetsub : ∀ t ∈ tsList ((sources.set p0.src il.rest).getD p0.src []),
        t ∈ tsList il.rest ∨ (sources.set p0.src il.rest).getD p0.src [] = [] := by
      intro t ht
      by_cases hi : p0.src < sources.length
      · rw [getD_set_self sources p0.src il.rest hi] at ht
        exact Or.inl ht
      · right
        rw [List.set_eq_of_length_le (le_of_not_lt hi)]
        rcases getD_mem_or_nil sources p0.src with hmem | hnil
        · -- out of range: getD is the default
          have : sources.getD p0.src [] = [] := by
            simp [List.getD_eq_getElem?_getD, List.getElem?_eq_none (le_of_not_lt hi)]
          exact this
        · exact hnil
    have HL' : ∀ q ∈ pushOpt h' il.pushed,
        ∀ t ∈ tsList ((sources.set p0.src il.rest).getD q.src []), q.timestamp ≤ t := by
      intro q hq t ht
      rcases mem_pushOpt hq with hq' | hq'
      · by_cases hsrc : q.src = p0.src
        · rw [hsrc] at ht
          rcases hsetsub t ht with ht' | hnil
          · have htsub : t ∈ tsList (sources.getD p0.src []) :=
              (tsList_suffix hsuffix).sublist.subset ht'
            rw [← hsrc] at htsub
            exact HL q (hmem' q hq') t htsub
          · rw [hnil] at ht
            simp [tsList] at ht
        · rw [getD_set_ne sources il.rest (fun hc => hsrc hc.symm)] at ht
          exact HL q (hmem' q hq') t ht
      · have hsrc : q.src = p0.src :=
          innerLoop_pushed_src p0.timestamp (sources.getD p0.src []) hq'
        rw [hsrc] at ht
        rcases hsetsub t ht with ht' | hnil
        · exact ((ilg q hq').2.2) t ht'
        · rw [hnil] at ht
          simp [tsList] at ht
    obtain ⟨ih1, ih2⟩ := ih HS' HL'
    have hbound : ∀ q ∈ pushOpt h' il.pushed, il.prevOut ≤ q.timestamp := by
      intro q hq
      rcases mem_pushOpt hq with hq' | hq'
      · rcases ilh with hcase | ⟨qo, hqo, hcase⟩
        · rw [hcase]
          exact hmin q hq'
        · rw [hcase]
          exact le_trans (ila qo hqo).2 (heapMinTs_le h' q hq')
      · exact (ilg q hq').2.1
    rw [mergeLoop_eq_step hp]
    simp only
    constructor
    · rw [List.pairwise_append]
      refine ⟨?_, ih1, ?_⟩
      · rw [List.pairwise_cons]
        refine ⟨?_, ilb⟩
        intro q hq
        exact (ila q hq).1
      · intro x hx y hy
        rcases List.mem_cons.mp hx with hx | hx
        · rw [hx]
          exact le_trans ilc (ih2 il.prevOut hbound y hy)
        · exact le_trans (ild x hx) (ih2 il.prevOut hbound y hy)
    · intro b hb q hq
      rcases List.mem_append.mp hq with hq | hq
      · rcases List.mem_cons.mp hq with hq | hq
        · rw [hq]
          exact hb p0 hp0mem
        · exact le_trans (hb p0 hp0mem) (ila q hq).1
      · refine ih2 b ?_ q hq
        intro q' hq'
        rcases mem_pushOpt hq' with hq'' | hq''
        · exact hb q' (hmem' q' hq'')
        · exact le_trans (hb p0 hp0mem) (le_trans ilc ((ilg q' hq'').2.1))

theorem mem_pushOpt_of_eq {h' : List Packet} {o : Option Packet} {q : Packet}
    (ho : o = some q) : q ∈ pushOpt h' o := by
  subst ho
  exact List.mem_append_right _ (List.mem_singleton.mpr rfl)

theorem pushOpt_sub {h' : List Packet} (o : Option Packet) {q : Packet}
    (hq : q ∈ h') : q ∈ pushOpt h' o := by
  cases o with
  | none => exact hq
  | some qp => exact List.mem_append_left _ hq

theorem pushOpt_length (h' : List Packet) (o : Option Packet) :
    (pushOpt h' o).length = h'.length + pushCount o := by
  cases o with
  | none => rfl
  | some qp => simp [pushOpt, heapPush, pushCount]

/-- Counting invariant of the outer loop: over clean time-ordered
sources, with every staged packet ahead of its own source, valid source
indices and a staged packet for every nonempty source, the number of
emitted packets is the heap size plus the number of unread items --
nothing is dropped and nothing is duplicated. -/
theorem mergeLoop_count_spec (sources : List (List ReadItem)) (h : List Packet)
    (p : Int) (HC : ∀ s ∈ sources, cleanItems s ∧ itemsSorted s)
    (HL : ∀ q ∈ h, ∀ t ∈ tsList (sources.getD q.src []), q.timestamp ≤ t)
    (HV : ∀ q ∈ h, q.src < sources.length)
    (HA : ∀ i, sources.getD i [] ≠ [] → ∃ q ∈ h, q.src = i) :
    (mergeLoop sources h p).out.length = h.length + (sources.map List.length).sum := by
  induction sources, h, p using mergeLoop.induct with
  | case1 sources h p hp =>
    have hnil : h = [] := heapPop_none hp
    subst hnil
    have hall : ∀ s ∈ sources, s = [] := by
      intro s hs
      rcases List.mem_iff_getElem.mp hs with ⟨i, hi, hgi⟩
      have hgd : sources.getD i [] = s := by
        simp [List.getD_eq_getElem?_getD, List.getElem?_eq_getElem hi, hgi]
      by_contra hne
      rcases HA i (by rw [hgd]; exact hne) with ⟨q, hq, -⟩
      simp at hq
    have hsum : (sources.map List.length).sum = 0 := by
      apply List.sum_eq_zero
      intro x hx
      rcases List.mem_map.mp hx with ⟨s, hs, hlen⟩
      rw [← hlen, hall s hs]
      rfl
    rw [mergeLoop_eq_none hp]
    simp [hsum]
  | case2 sources h p p0 h' hp il ih =>
    have hperm := heapPop_perm hp
    have hp0mem : p0 ∈ h := hperm.symm.subset (List.mem_cons_self _ _)
    have hmem' : ∀ q ∈ h', q ∈ h := fun q hq =>
      hperm.symm.subset (List.mem_cons_of_mem _ hq)
    have hp0lt : p0.src < sources.length := HV p0 hp0mem
    have hcs : cleanItems (sources.getD p0.src []) ∧ itemsSorted (sources.getD p0.src []) := by
      rcases getD_mem_or_nil sources p0.src with hmem | hnil
      · exact HC _ hmem
      · rw [hnil]
        exact ⟨by simp [cleanItems], by simp [itemsSorted, tsList]⟩
    have hger : ∀ t ∈ tsList (sources.getD p0.src []), p0.timestamp ≤ t :=
      HL p0 hp0mem
    obtain ⟨ila, ilb, ilc, ild, ile, ilf, ilg, ilh⟩ :=
      @innerLoop_sorted p0.src (heapMinTs h') p0.timestamp (sources.getD p0.src [])
        hcs.2 hger
    obtain ⟨hcnt, hclean'⟩ :=
      @innerLoop_count p0.src (heapMinTs h') p0.timestamp (sources.getD p0.src [])
        hcs.1 hcs.2 hger
    have hsuffix : il.rest <:+ sources.getD p0.src [] :=
      innerLoop_suffix p0.src (heapMinTs h') p0.timestamp (sources.getD p0.src [])
    have HC' : ∀ s ∈ sources.set p0.src il.rest, cleanItems s ∧ itemsSorted s := by
      intro s hs
      rcases List.mem_or_eq_of_mem_set hs with hs | hs
      · exact HC s hs
      · rw [hs]
        exact ⟨hclean', ile⟩
    have hsetsub : ∀ t ∈ tsList ((sources.set p0.src il.rest).getD p0.src []),
        t ∈ tsList il.rest := by
      intro t ht
      rw [getD_set_self sources p0.src il.rest hp0lt] at ht
      exact ht
    have HL' : ∀ q ∈ pushOpt h' il.pushed,
        ∀ t ∈ tsList ((sources.set p0.src il.rest).getD q.src []), q.timestamp ≤ t := by
      intro q hq t ht
      rcases mem_pushOpt hq with hq' | hq'
      · by_cases hsrc : q.src = p0.src
        · rw [hsrc] at ht
          have ht' := hsetsub t ht
          have htsub : t ∈ tsList (sources.getD p0.src []) :=
            (tsList_suffix hsuffix).sublist.subset ht'
          rw [← hsrc] at htsub
          exact HL q (hmem' q hq') t htsub
        · rw [getD_set_ne sources il.rest (fun hc => hsrc hc.symm)] at ht
          exact HL q (hmem' q hq') t ht
      · have hsrc : q.src = p0.src :=
          innerLoop_pushed_src p0.timestamp (sources.getD p0.src []) hq'
        rw [hsrc] at ht
        exact ((ilg q hq').2.2) t (hsetsub t ht)
    have HV' : ∀ q ∈ pushOpt h' il.pushed, q.src < (sources.set p0.src il.rest).length := by
      intro q hq
      rw [List.length_set]
      rcases mem_pushOpt hq with hq' | hq'
      · exact HV q (hmem' q hq')
      · rw [innerLoop_pushed_src p0.timestamp (sources.getD p0.src []) hq']
        exact hp0lt
    have HA' : ∀ i, (sources.set p0.src il.rest).getD i [] ≠ [] →
        ∃ q ∈ pushOpt h' il.pushed, q.src = i := by
      intro i hne
      by_cases hsrc : i = p0.src
      · rw [hsrc, getD_set_self sources p0.src il.rest hp0lt] at hne
        have hsome := innerLoop_active p0.timestamp (sources.getD p0.src []) hne
        rcases Option.isSome_iff_exists.mp hsome with ⟨qp, hqp⟩
        refine ⟨qp, mem_pushOpt_of_eq hqp, ?_⟩
        rw [innerLoop_pushed_src p0.timestamp (sources.getD p0.src []) hqp, hsrc]
      · rw [getD_set_ne sources il.rest (fun hc => hsrc hc.symm)] at hne
        rcases HA i hne with ⟨q, hq, hqi⟩
        have hq2 := hperm.subset hq
        rcases List.mem_cons.mp hq2 with hq3 | hq3
        · exfalso
          rw [hq3] at hqi
          exact hsrc hqi.symm
        · exact ⟨q, pushOpt_sub il.pushed hq3, hqi⟩
    have ihr := ih HC' HL' HV' HA'
    have hlen := heapPop_length hp
    have hpl := pushOpt_length h' il.pushed
    have hsum := sum_map_length_set_eq sources p0.src il.rest hp0lt
    have hcnt2 : il.out.length + pushCount il.pushed + il.rest.length =
        (sources.getD p0.src []).length := hcnt
    rw [mergeLoop_eq_step hp]
    show (p0 :: il.out ++
        (mergeLoop (sources.set p0.src il.rest) (pushOpt h' il.pushed) il.prevOut).out).length =
      h.length + (sources.map List.length).sum
    simp only [List.length_append, List.length_cons]
    omega

/-! Heap discipline: at most one staged packet per source. -/

/-- Relation between consecutive heap snapshots of the outer loop: one
packet is popped and at most one packet, from the same source, is pushed
back. -/
def stepRel (h1 h2 : List Packet) : Prop :=
  ∃ p h', heapPop h1 = some (p, h') ∧
    (h2 = h' ∨ ∃ q, q.src = p.src ∧ h2 = heapPush h' q)

/-- Distinctness of staged sources is preserved by every outer
iteration: all recorded heap snapshots stage at most one packet per
source when the initial heap does. -/
theorem mergeLoop_nodup (sources : List (List ReadItem)) (h : List Packet) (p : Int)
    (hnd : (h.map Packet.src).Nodup) :
    ∀ hs ∈ (mergeLoop sources h p).heaps, (hs.map Packet.src).Nodup := by
  induction sources, h, p using mergeLoop.induct with
  | case1 sources h p hp =>
    rw [mergeLoop_eq_none hp]
    intro hs hhs
    have : hs = h := by simpa using hhs
    rw [this]
    exact hnd
  | case2 sources h p p0 h' hp il ih =>
    have hperm := heapPop_perm hp
    have hmap : List.Perm (h.map Packet.src) (p0.src :: h'.map Packet.src) := by
      simpa using hperm.map Packet.src
    have hnd2 : (p0.src :: h'.map Packet.src).Nodup := hmap.nodup_iff.mp hnd
    have hnd' : (h'.map Packet.src).Nodup := (List.nodup_cons.mp hnd2).2
    have hnotin : p0.src ∉ h'.map Packet.src := (List.nodup_cons.mp hnd2).1
    have hnext : ((pushOpt h' il.pushed).map Packet.src).Nodup := by
      rcases hps : il.pushed with _ | qp
      · simpa [pushOpt] using hnd'
      · have hsrc : qp.src = p0.src :=
          innerLoop_pushed_src p0.timestamp (sources.getD p0.src []) hps
        simp only [pushOpt, heapPush, List.map_append, List.map_cons, List.map_nil]
        rw [List.nodup_append]
        refine ⟨hnd', by simp, ?_⟩
        intro x hx
        simp only [List.mem_singleton]
        intro hc
        rw [hc, hsrc] at hx
        exact hnotin hx
    rw [mergeLoop_eq_step hp]
    intro hs hhs
    rcases List.mem_cons.mp hhs with hhs | hhs
    · rw [hhs]
      exact hnd
    · exact ih hnext hs hhs

/-- Every pair of consecutive heap snapshots is connected by one pop and
at most one push from the popped source. -/
theorem mergeLoop_chain (sources : List (List ReadItem)) (h : List Packet) (p : Int) :
    List.Chain' stepRel (mergeLoop sources h p).heaps := by
  induction sources, h, p using mergeLoop.induct with
  | case1 sources h p hp =>
    rw [mergeLoop_eq_none hp]
    simp
  | case2 sources h p p0 h' hp il ih =>
    rw [mergeLoop_eq_step hp]
    show List.Chain' stepRel (h :: (mergeLoop (sources.set p0.src il.rest)
      (pushOpt h' il.pushed) il.prevOut).heaps)
    rw [List.chain'_cons']
    constructor
    · intro b hb
      rw [mergeLoop_heaps_head] at hb
      have hb2 : b = pushOpt h' il.pushed := by
        have := hb
        simp at this
        exact this.symm
      refine ⟨p0, h', hp, ?_⟩
      rcases hps : il.pushed with _ | qp
      · left
        rw [hb2, hps]
        rfl
      · right
        refine ⟨qp, innerLoop_pushed_src p0.timestamp (sources.getD p0.src []) hps, ?_⟩
        rw [hb2, hps]
        rfl
    · exact ih

/-! Initialization over the input files and the top level joincap. -/

/-- One input file at the interface boundary of the core (spec section
6): unopenable (os.Open fails), unparsable (pcapgo.NewReader fails), or
a parsed stream carrying its declared link type and its decode results. -/
inductive InputFile where
  | openFail
  | parseFail
  | ok (linkType : Nat) (items : List ReadItem)
deriving DecidableEq, Repr

/-- The decode results of an input file; failed files yield nothing. -/
def inputItems : InputFile → List ReadItem
  | InputFile.ok _ items => items
  | InputFile.openFail => []
  | InputFile.parseFail => []

/-- Link type resolution step of initHeapWithInputFiles (lines 165 to
169 of src/main.go): the Null zero value is seeded by the current file,
and any later disagreement collapses to Ethernet. -/
def ltStep (lt flt : Nat) : Nat :=
  if lt = LinkTypeNull then flt else if lt ≠ flt then LinkTypeEthernet else lt

/-- Translation of the loop of initHeapWithInputFiles (lines 144 to 186
of src/main.go).  The index i is the position of the current file in
the argument list and identifies its Reader; a file that fails to open,
to parse, or to yield a first packet contributes an exhausted source.
The accumulators are the link type, the heap, the per-file remaining
items and previousTimestamp. -/
def initGo : List InputFile → Nat → Nat → List Packet → List (List ReadItem) → Int →
    Nat × List Packet × List (List ReadItem) × Int
  | [], _, lt, h, srcs, pt => (lt, h, srcs, pt)
  | InputFile.openFail :: fs, i, lt, h, srcs, pt =>
    initGo fs (i + 1) lt h (srcs ++ [[]]) pt
  | InputFile.parseFail :: fs, i, lt, h, srcs, pt =>
    initGo fs (i + 1) lt h (srcs ++ [[]]) pt
  | InputFile.ok flt items :: fs, i, lt, h, srcs, pt =>
    match readNext pt true items with
    | (none, _) => initGo fs (i + 1) (ltStep lt flt) h (srcs ++ [[]]) pt
    | (some (ts, d), rest) =>
      initGo fs (i + 1) (ltStep lt flt) (heapPush h ⟨ts, d, i⟩) (srcs ++ [rest])
        (if pt = 0 then ts else if ts < pt then ts else pt)

/-- Translation of initHeapWithInputFiles: runs the loop from the empty
accumulators and returns the resolved link type together with the error
value, which is always nil (line 193 of src/main.go).  The incoming
previousTimestamp pt0 models the process-wide variable at entry. -/
def initHeapWithInputFiles (inputs : List InputFile) (pt0 : Int) :
    (Nat × List Packet × List (List ReadItem) × Int) × Option String :=
  (initGo inputs 0 LinkTypeNull [] [] pt0, none)

/-- Translation of write (lines 246 to 253 of src/main.go): the sink
receives the packet when it accepts it (wErr false); the error is only
logged and previousTimestamp is set to the packet timestamp in every
case. -/
def write (wErr : Bool) (file : List Packet) (packetToWrite : Packet) :
    List Packet × Int :=
  (if wErr then file else file ++ [packetToWrite], packetToWrite.timestamp)

/-- Observable outcome of one joincap run: the output header if one was
written, the packets the engine emitted (its WritePacket calls), the
packets the sink accepted, the final previousTimestamp, the heap
snapshots, and the returned error. -/
structure JoincapResult where
  header : Option (Nat × Nat)
  out : List Packet
  fileOut : List Packet
  finalPrev : Int
  heaps : List (List Packet)
  err : Option String
deriving DecidableEq, Repr

/-- Sink oracle accepting every record. -/
def noFail : Packet → Bool := fun _ => false

/-- Translation of the core of joincap (lines 80 to 138 of
src/main.go), after flag parsing and output file creation, which are
outside the core (spec section 1).  The argument w is the acceptance
oracle of the capture sink (spec section 6); pt0 is the value of the
process-wide previousTimestamp when the run starts.  The run
initializes the heap, checks the always-nil initialization error,
writes the file header and drives the merge loop. -/
def joincap (inputs : List InputFile) (pt0 : Int) (w : Packet → Bool) : JoincapResult :=
  match initHeapWithInputFiles inputs pt0 with
  | (ini, some e) =>
    ⟨none, [], [], ini.2.2.2, [], some ("cannot initialize merge: " ++ e)⟩
  | (ini, none) =>
    ⟨some (maxSnaplen, ini.1), (mergeLoop ini.2.2.1 ini.2.1 ini.2.2.2).out,
      (mergeLoop ini.2.2.1 ini.2.1 ini.2.2.2).out.foldl
        (fun f q => (write (w q) f q).1) [],
      (mergeLoop ini.2.2.1 ini.2.1 ini.2.2.2).finalPrev,
      (mergeLoop ini.2.2.1 ini.2.1 ini.2.2.2).heaps, none⟩

/-- The initialization error is syntactically nil, so joincap always
takes the merge branch. -/
theorem joincap_eq (inputs : List InputFile) (pt0 : Int) (w : Packet → Bool) :
    joincap inputs pt0 w =
      ⟨some (maxSnaplen, (initGo inputs 0 LinkTypeNull [] [] pt0).1),
        (mergeLoop (initGo inputs 0 LinkTypeNull [] [] pt0).2.2.1
          (initGo inputs 0 LinkTypeNull [] [] pt0).2.1
          (initGo inputs 0 LinkTypeNull [] [] pt0).2.2.2).out,
        (mergeLoop (initGo inputs 0 LinkTypeNull [] [] pt0).2.2.1
          (initGo inputs 0 LinkTypeNull [] [] pt0).2.1
          (initGo inputs 0 LinkTypeNull [] [] pt0).2.2.2).out.foldl
          (fun f q => (write (w q) f q).1) [],
        (mergeLoop (initGo inputs 0 LinkTypeNull [] [] pt0).2.2.1
          (initGo inputs 0 LinkTypeNull [] [] pt0).2.1
          (initGo inputs 0 LinkTypeNull [] [] pt0).2.2.2).finalPrev,
        (mergeLoop (initGo inputs 0 LinkTypeNull [] [] pt0).2.2.1
          (initGo inputs 0 LinkTypeNull [] [] pt0).2.1
          (initGo inputs 0 LinkTypeNull [] [] pt0).2.2.2).heaps, none⟩ := rfl

/-! Specification of the initialization loop. -/

theorem getD_append_self (l : List (List ReadItem)) (x : List ReadItem) :
    (l ++ [x]).getD l.length [] = x := by
  simp [List.getD_eq_getElem?_getD]

/-- Invariants established by the initialization loop: the source pool
covers all files in order, every pool entry of a time-ordered input is
time-ordered, every staged packet names a valid source and is at or
before everything left in it, and every nonempty pool entry has a
staged packet. -/
theorem initGo_spec (fs : List InputFile) (i : Nat) (lt : Nat) (h : List Packet)
    (srcs : List (List ReadItem)) (pt : Int)
    (hlen : srcs.length = i)
    (hacc1 : ∀ s ∈ srcs, itemsSorted s)
    (hacc2 : ∀ q ∈ h, q.src < i)
    (hacc3 : ∀ q ∈ h, ∀ t ∈ tsList (srcs.getD q.src []), q.timestamp ≤ t)
    (hacc4 : ∀ j, srcs.getD j [] ≠ [] → ∃ q ∈ h, q.src = j)
    (HF : ∀ f ∈ fs, itemsSorted (inputItems f)) :
    (initGo fs i lt h srcs pt).2.2.1.length = i + fs.length ∧
    (∀ s ∈ (initGo fs i lt h srcs pt).2.2.1, itemsSorted s) ∧
    (∀ q ∈ (initGo fs i lt h srcs pt).2.1, q.src < i + fs.length) ∧
    (∀ q ∈ (initGo fs i lt h srcs pt).2.1,
        ∀ t ∈ tsList ((initGo fs i lt h srcs pt).2.2.1.getD q.src []),
          q.timestamp ≤ t) ∧
    (∀ j, (initGo fs i lt h srcs pt).2.2.1.getD j [] ≠ [] →
        ∃ q ∈ (initGo fs i lt h srcs pt).2.1, q.src = j) := by
  induction fs generalizing i lt h srcs pt with
  | nil =>
    simp only [initGo, List.length_nil, Nat.add_zero]
    exact ⟨hlen, hacc1, hacc2, hacc3, hacc4⟩
  | cons f fs ih =>
    have hskip : ∀ lt2 : Nat,
        (initGo fs (i + 1) lt2 h (srcs ++ [[]]) pt).2.2.1.length = i + (f :: fs).length ∧
        (∀ s ∈ (initGo fs (i + 1) lt2 h (srcs ++ [[]]) pt).2.2.1, itemsSorted s) ∧
        (∀ q ∈ (initGo fs (i + 1) lt2 h (srcs ++ [[]]) pt).2.1,
            q.src < i + (f :: fs).length) ∧
        (∀ q ∈ (initGo fs (i + 1) lt2 h (srcs ++ [[]]) pt).2.1,
            ∀ t ∈ tsList ((initGo fs (i + 1) lt2 h (srcs ++ [[]]) pt).2.2.1.getD q.src []),
              q.timestamp ≤ t) ∧
        (∀ j, (initGo fs (i + 1) lt2 h (srcs ++ [[]]) pt).2.2.1.getD j [] ≠ [] →
            ∃ q ∈ (initGo fs (i + 1) lt2 h (srcs ++ [[]]) pt).2.1, q.src = j) := by
      intro lt2
      have hres := ih (i + 1) lt2 h (srcs ++ [[]]) pt
        (by simp [hlen])
        (by
          intro s hs
          rcases List.mem_append.mp hs with hs | hs
          · exact hacc1 s hs
          · have : s = [] := by simpa using hs
            rw [this]
            simp [itemsSorted, tsList])
        (fun q hq => Nat.lt_succ_of_lt (hacc2 q hq))
        (by
          intro q hq t ht
          rw [List.getD_append _ _ _ _ (by rw [hlen]; exact hacc2 q hq)] at ht
          exact hacc3 q hq t ht)
        (by
          intro j hj
          by_cases hji : j < i
          · rw [List.getD_append _ _ _ _ (by rw [hlen]; exact hji)] at hj
            exact hacc4 j hj
          · by_cases hje : j = i
            · rw [hje, ← hlen, getD_append_self] at hj
              exact absurd rfl hj
            · rw [List.getD_eq_default] at hj
              · exact absurd rfl hj
              · simp only [List.length_append, List.length_singleton, hlen]
                omega)
        (fun g hg => HF g (List.mem_cons_of_mem _ hg))
      simpa [Nat.add_comm, Nat.add_assoc, Nat.add_left_comm] using hres
    cases f with
    | openFail => simpa [initGo] using hskip lt
    | parseFail => simpa [initGo] using hskip lt
    | ok flt items =>
      rcases hrn : readNext pt true items with ⟨orec, rest⟩
      cases orec with
      | none =>
        have hgoal := hskip (ltStep lt flt)
        simp only [initGo, hrn]
        simpa using hgoal
      | some rec0 =>
        rcases rec0 with ⟨ts, d⟩
        have hitems : itemsSorted items := HF _ (List.mem_cons_self _ _)
        have hsufr : rest <:+ items := by
          have := readNext_suffix pt true items
          rw [hrn] at this
          exact this
        have hrsorted : itemsSorted rest ∧ ∀ t ∈ tsList rest, ts ≤ t :=
          readNext_some_sorted hitems hrn
        have hres := ih (i + 1) (ltStep lt flt) (heapPush h ⟨ts, d, i⟩) (srcs ++ [rest])
          (if pt = 0 then ts else if ts < pt then ts else pt)
          (by simp [hlen])
          (by
            intro s hs
            rcases List.mem_append.mp hs with hs | hs
            · exact hacc1 s hs
            · have : s = rest := by simpa using hs
              rw [this]
              exact hrsorted.1)
          (by
            intro q hq
            rcases List.mem_append.mp hq with hq | hq
            · exact Nat.lt_succ_of_lt (hacc2 q hq)
            · have : q = ⟨ts, d, i⟩ := by simpa using hq
              rw [this]
              exact Nat.lt_succ_self i)
          (by
            intro q hq t ht
            rcases List.mem_append.mp hq with hq | hq
            · rw [List.getD_append _ _ _ _ (by rw [hlen]; exact hacc2 q hq)] at ht
              exact hacc3 q hq t ht
            · have hq2 : q = ⟨ts, d, i⟩ := by simpa using hq
              rw [hq2] at ht ⊢
              simp only at ht ⊢
              rw [← hlen, getD_append_self] at ht
              exact hrsorted.2 t ht)
          (by
            intro j hj
            by_cases hji : j < i
            · rw [List.getD_append _ _ _ _ (by rw [hlen]; exact hji)] at hj
              rcases hacc4 j hj with ⟨q, hq, hqj⟩
              exact ⟨q, List.mem_append_left _ hq, hqj⟩
            · by_cases hje : j = i
              · refine ⟨⟨ts, d, i⟩, List.mem_append_right _ (by simp), ?_⟩
                rw [hje]
              · rw [List.getD_eq_default] at hj
                · exact absurd rfl hj
                · simp only [List.length_append, List.length_singleton, hlen]
                  omega)
          (fun g hg => HF g (List.mem_cons_of_mem _ hg))
        simp only [initGo, hrn]
        simpa [Nat.add_comm, Nat.add_assoc, Nat.add_left_comm] using hres

/-- Initialization keeps pool entries clean when all inputs are clean. -/
theorem initGo_clean (fs : List InputFile) (i : Nat) (lt : Nat) (h : List Packet)
    (srcs : List (List ReadItem)) (pt : Int)
    (hacc : ∀ s ∈ srcs, cleanItems s)
    (HF : ∀ f ∈ fs, cleanItems (inputItems f)) :
    ∀ s ∈ (initGo fs i lt h srcs pt).2.2.1, cleanItems s := by
  induction fs generalizing i lt h srcs pt with
  | nil =>
    simpa [initGo] using hacc
  | cons f fs ih =>
    have hnilc : ∀ s ∈ srcs ++ [[]], cleanItems s := by
      intro s hs
      rcases List.mem_append.mp hs with hs | hs
      · exact hacc s hs
      · have : s = [] := by simpa using hs
        rw [this]
        intro a ha
        simp at ha
    have HF' : ∀ g ∈ fs, cleanItems (inputItems g) :=
      fun g hg => HF g (List.mem_cons_of_mem _ hg)
    cases f with
    | openFail => simpa [initGo] using ih (i + 1) lt h (srcs ++ [[]]) pt hnilc HF'
    | parseFail => simpa [initGo] using ih (i + 1) lt h (srcs ++ [[]]) pt hnilc HF'
    | ok flt items =>
      rcases hrn : readNext pt true items with ⟨orec, rest⟩
      cases orec with
      | none =>
        simp only [initGo, hrn]
        exact ih (i + 1) (ltStep lt flt) h (srcs ++ [[]]) pt hnilc HF'
      | some rec0 =>
        rcases rec0 with ⟨ts, d⟩
        have hsufr : rest <:+ items := by
          have := readNext_suffix pt true items
          rw [hrn] at this
          exact this
        have hrestc : cleanItems rest := by
          intro a ha
          exact HF _ (List.mem_cons_self _ _) a (hsufr.sublist.subset ha)
        have haccr : ∀ s ∈ srcs ++ [rest], cleanItems s := by
          intro s hs
          rcases List.mem_append.mp hs with hs | hs
          · exact hacc s hs
          · have : s = rest := by simpa using hs
            rw [this]
            exact hrestc
        simp only [initGo, hrn]
        exact ih (i + 1) (ltStep lt flt) (heapPush h ⟨ts, d, i⟩) (srcs ++ [rest]) _
          haccr HF'

/-- Link types of the input files that open and parse successfully, in
argument order. -/
def openedLinkTypes : List InputFile → List Nat
  | [] => []
  | InputFile.openFail :: fs => openedLinkTypes fs
  | InputFile.parseFail :: fs => openedLinkTypes fs
  | InputFile.ok flt _ :: fs => flt :: openedLinkTypes fs

/-- Fold of the link type resolution over a list of declared types. -/
def ltFold (lt : Nat) : List Nat → Nat
  | [] => lt
  | flt :: rest => ltFold (ltStep lt flt) rest

/-- The resolved link type of initialization is the fold of ltStep over
the successfully opened files, regardless of heap or timestamps. -/
theorem initGo_lt (fs : List InputFile) (i : Nat) (lt : Nat) (h : List Packet)
    (srcs : List (List ReadItem)) (pt : Int) :
    (initGo fs i lt h srcs pt).1 = ltFold lt (openedLinkTypes fs) := by
  induction fs generalizing i lt h srcs pt with
  | nil => rfl
  | cons f fs ih =>
    cases f with
    | openFail => simpa [initGo, openedLinkTypes] using ih (i + 1) lt h (srcs ++ [[]]) pt
    | parseFail => simpa [initGo, openedLinkTypes] using ih (i + 1) lt h (srcs ++ [[]]) pt
    | ok flt items =>
      rcases hrn : readNext pt true items with ⟨orec, rest⟩
      cases orec with
      | none =>
        simp only [initGo, hrn, openedLinkTypes, ltFold]
        exact ih (i + 1) (ltStep lt flt) h (srcs ++ [[]]) pt
      | some rec0 =>
        rcases rec0 with ⟨ts, d⟩
        simp only [initGo, hrn, openedLinkTypes, ltFold]
        exact ih (i + 1) (ltStep lt flt) (heapPush h ⟨ts, d, i⟩) (srcs ++ [rest]) _

/-- Ethernet is absorbing for the link type resolution. -/
theorem ltFold_eth (ls : List Nat) : ltFold LinkTypeEthernet ls = LinkTypeEthernet := by
  induction ls with
  | nil => rfl
  | cons x ls ih =>
    have hstep : ltStep LinkTypeEthernet x = LinkTypeEthernet := by
      simp only [ltStep, LinkTypeEthernet, LinkTypeNull]
      split
    -- fallthrough handled below
      · omega
      · split <;> rfl
    simp only [ltFold, hstep]
    exact ih

/-- A non-Null seed resolves to itself when every later opened file
agrees and to Ethernet otherwise. -/
theorem ltFold_seeded (l : Nat) (hl : l ≠ LinkTypeNull) (ls : List Nat) :
    ltFold l ls = if ∀ x ∈ ls, x = l then l else LinkTypeEthernet := by
  induction ls with
  | nil => simp [ltFold]
  | cons x ls ih =>
    by_cases hx : x = l
    · subst hx
      have hstep : ltStep x x = x := by
        simp [ltStep, hl]
      simp only [ltFold, hstep, ih]
      by_cases hall : ∀ y ∈ ls, y = x
      · simp [hall]
      · rw [if_neg hall, if_neg]
        intro hc
        exact hall fun y hy => hc y (List.mem_cons_of_mem _ hy)
    · have hstep : ltStep l x = LinkTypeEthernet := by
        simp only [ltStep, if_neg hl]
        rw [if_pos]
        intro hc
        exact hx hc.symm
      simp only [ltFold, hstep, ltFold_eth]
      rw [if_neg]
      intro hc
      exact hx (hc x (List.mem_cons_self _ _))

/-- Indices of the input files that survive initialization: opened,
parsed, and yielding a first packet. -/
def survivorsAux : List InputFile → Nat → List Nat
  | [], _ => []
  | InputFile.openFail :: fs, i => survivorsAux fs (i + 1)
  | InputFile.parseFail :: fs, i => survivorsAux fs (i + 1)
  | InputFile.ok _ items :: fs, i =>
    if (readNext 0 true items).1.isSome then i :: survivorsAux fs (i + 1)
    else survivorsAux fs (i + 1)

/-- The initial heap stages exactly one packet per surviving file, in
file order. -/
theorem initGo_heap_srcs (fs : List InputFile) (i : Nat) (lt : Nat) (h : List Packet)
    (srcs : List (List ReadItem)) (pt : Int) :
    (initGo fs i lt h srcs pt).2.1.map Packet.src =
      h.map Packet.src ++ survivorsAux fs i := by
  induction fs generalizing i lt h srcs pt with
  | nil => simp [initGo, survivorsAux]
  | cons f fs ih =>
    cases f with
    | openFail =>
      simpa [initGo, survivorsAux] using ih (i + 1) lt h (srcs ++ [[]]) pt
    | parseFail =>
      simpa [initGo, survivorsAux] using ih (i + 1) lt h (srcs ++ [[]]) pt
    | ok flt items =>
      rcases hrn : readNext pt true items with ⟨orec, rest⟩
      have hrn0 : readNext 0 true items = readNext pt true items := readNext_init_pt 0 pt items
      cases orec with
      | none =>
        have hnone : (readNext 0 true items).1.isSome = false := by
          rw [hrn0, hrn]
          rfl
        simp only [initGo, hrn, survivorsAux, hnone]
        simpa using ih (i + 1) (ltStep lt flt) h (srcs ++ [[]]) pt
      | some rec0 =>
        rcases rec0 with ⟨ts, d⟩
        have hsome : (readNext 0 true items).1.isSome = true := by
          rw [hrn0, hrn]
          rfl
        simp only [initGo, hrn, survivorsAux, hsome, if_true]
        rw [ih (i + 1) (ltStep lt flt) (heapPush h ⟨ts, d, i⟩) (srcs ++ [rest]) _]
        simp [heapPush]

theorem survivorsAux_ge (fs : List InputFile) (i : Nat) :
    ∀ x ∈ survivorsAux fs i, i ≤ x := by
  induction fs generalizing i with
  | nil => simp [survivorsAux]
  | cons f fs ih =>
    cases f with
    | openFail =>
      intro x hx
      exact le_trans (Nat.le_succ i) (ih (i + 1) x hx)
    | parseFail =>
      intro x hx
      exact le_trans (Nat.le_succ i) (ih (i + 1) x hx)
    | ok flt items =>
      intro x hx
      simp only [survivorsAux] at hx
      by_cases hs : (readNext 0 true items).1.isSome
      · rw [if_pos hs] at hx
        rcases List.mem_cons.mp hx with hx | hx
        · rw [hx]
        · exact le_trans (Nat.le_succ i) (ih (i + 1) x hx)
      · rw [if_neg hs] at hx
        exact le_trans (Nat.le_succ i) (ih (i + 1) x hx)

theorem survivorsAux_nodup (fs : List InputFile) (i : Nat) :
    (survivorsAux fs i).Nodup := by
  induction fs generalizing i with
  | nil => simp [survivorsAux]
  | cons f fs ih =>
    cases f with
    | openFail => exact ih (i + 1)
    | parseFail => exact ih (i + 1)
    | ok flt items =>
      simp only [survivorsAux]
      by_cases hs : (readNext 0 true items).1.isSome
      · rw [if_pos hs]
        rw [List.nodup_cons]
        refine ⟨?_, ih (i + 1)⟩
        intro hc
        have := survivorsAux_ge fs (i + 1) i hc
        omega
      · rw [if_neg hs]
        exact ih (i + 1)

/-- The link type, heap and source pool produced by initialization do
not depend on the incoming previousTimestamp: initialization reads
never consult it. -/
theorem initGo_pt_indep (fs : List InputFile) (i : Nat) (lt : Nat) (h : List Packet)
    (srcs : List (List ReadItem)) (a b : Int) :
    (initGo fs i lt h srcs a).1 = (initGo fs i lt h srcs b).1 ∧
    (initGo fs i lt h srcs a).2.1 = (initGo fs i lt h srcs b).2.1 ∧
    (initGo fs i lt h srcs a).2.2.1 = (initGo fs i lt h srcs b).2.2.1 := by
  induction fs generalizing i lt h srcs a b with
  | nil => exact ⟨rfl, rfl, rfl⟩
  | cons f fs ih =>
    cases f with
    | openFail => exact ih (i + 1) lt h (srcs ++ [[]]) a b
    | parseFail => exact ih (i + 1) lt h (srcs ++ [[]]) a b
    | ok flt items =>
      have hsame : readNext a true items = readNext b true items :=
        readNext_init_pt a b items
      rcases hrn : readNext a true items with ⟨orec, rest⟩
      have hrnb : readNext b true items = (orec, rest) := by rw [← hsame, hrn]
      cases orec with
      | none =>
        simp only [initGo, hrn, hrnb]
        exact ih (i + 1) (ltStep lt flt) h (srcs ++ [[]]) a b
      | some rec0 =>
        rcases rec0 with ⟨ts, d⟩
        simp only [initGo, hrn, hrnb]
        exact ih (i + 1) (ltStep lt flt) (heapPush h ⟨ts, d, i⟩) (srcs ++ [rest]) _ _

/-! Support lemmas for the run level claims. -/

/-- Folding write over the emissions appends exactly the packets the
sink accepts, in order. -/
theorem write_foldl_filter (w : Packet → Bool) (out acc : List Packet) :
    out.foldl (fun f q => (write (w q) f q).1) acc =
      acc ++ out.filter (fun q => ! w q) := by
  induction out generalizing acc with
  | nil => simp
  | cons q out ih =>
    rcases hw : w q with _ | _
    · have hstep : (write (w q) acc q).1 = acc ++ [q] := by simp [write, hw]
      rw [List.foldl_cons, hstep, ih (acc ++ [q])]
      simp [List.filter_cons, hw]
    · have hstep : (write (w q) acc q).1 = acc := by simp [write, hw]
      rw [List.foldl_cons, hstep, ih acc]
      simp [List.filter_cons, hw]

theorem getLastD_map_timestamp {l : List Packet} {q : Packet} (d : Int)
    (h : l.getLast? = some q) :
    (l.map Packet.timestamp).getLastD d = q.timestamp := by
  induction l generalizing d with
  | nil => simp at h
  | cons a l ih =>
    cases l with
    | nil =>
      have ha : a = q := by simpa using h
      rw [ha]
      rfl
    | cons b l =>
      have h2 : (b :: l).getLast? = some q := by
        rw [List.getLast?_cons_cons] at h
        exact h
      rw [List.map_cons, List.getLastD_cons]
      exact ih _ h2

/-- C3: outside initialization, a decoded record whose timestamp plus
the one hour tolerance is strictly before previousTimestamp is skipped:
readNext drops it and continues with the very next record of the same
source, never closing it; and every record readNext returns passed the
tolerance and the nonempty payload checks. -/
theorem claim_C3_tolerance_rejection :
    (∀ (previousTimestamp ts : Int) (d : Payload) (rest : List ReadItem),
        ts + oneHour < previousTimestamp →
        readNext previousTimestamp false (ReadItem.ok ts d :: rest) =
          readNext previousTimestamp false rest) ∧
    (∀ (previousTimestamp : Int) (s rest : List ReadItem) (ts : Int) (d : Payload),
        readNext previousTimestamp false s = (some (ts, d), rest) →
        previousTimestamp ≤ ts + oneHour ∧ d ≠ []) := by
  constructor
  · intro p ts d rest hlt
    simp [readNext, hlt]
  · intro p s rest ts d hr
    exact ⟨readNext_some_tol hr, readNext_some_data hr⟩

/-- Witness for C3 at a concrete drop: the record at timestamp 0 is more
than an hour before the baseline and is skipped in place. -/
theorem claim_C3_witness :
    readNext (oneHour + 10) false [ReadItem.ok 0 [1], ReadItem.ok 20 [2]] =
      readNext (oneHour + 10) false [ReadItem.ok 20 [2]] ∧
    (oneHour + 10 ≤ 20 + oneHour ∧ ([2] : Payload) ≠ []) := by
  refine ⟨claim_C3_tolerance_rejection.1 (oneHour + 10) 0 [1] [ReadItem.ok 20 [2]]
    (by decide), ?_⟩
  exact claim_C3_tolerance_rejection.2 (oneHour + 10) [ReadItem.ok 20 [2]] [] 20 [2]
    (by decide)

/-- C6 counterexample: an initialization read of a decoded record with
empty payload does not accept it; the record is skipped (here, skipping
it exhausts the source, and in the second run the engine moves to the
next record). -/
theorem claim_C6_counterexample :
    readNext 0 true [ReadItem.ok 5 []] = (none, []) ∧
    readNext 0 true [ReadItem.ok 5 [], ReadItem.ok 6 [1]] = (some (6, [1]), []) := by
  decide

/-- C6 as amended: during an initialization read the tolerance check is
bypassed, and the result never depends on the baseline timestamp, but
the empty payload check still applies: a record read during
initialization is accepted exactly when its payload is nonempty. -/
theorem claim_C6_init_read_policy :
    (∀ (previousTimestamp ts : Int) (d : Payload) (rest : List ReadItem),
        readNext previousTimestamp true (ReadItem.ok ts d :: rest) =
          if d = [] then readNext previousTimestamp true rest
          else (some (ts, d), rest)) ∧
    (∀ (a b : Int) (s : List ReadItem), readNext a true s = readNext b true s) := by
  constructor
  · intro p ts d rest
    by_cases hd : d = []
    · simp [readNext, hd]
    · simp [readNext, hd]
  · exact readNext_init_pt

/-- C8: the previousTimestamp baseline is scoped to one merge run.  Two
runs over the same inputs and sink produce the same header, emissions,
file content, heap trace and error whatever baseline value the previous
run left behind: only finalPrev of an empty run can differ. -/
theorem claim_C8_baseline_scoped (inputs : List InputFile) (a b : Int)
    (w : Packet → Bool) :
    (joincap inputs a w).header = (joincap inputs b w).header ∧
    (joincap inputs a w).out = (joincap inputs b w).out ∧
    (joincap inputs a w).fileOut = (joincap inputs b w).fileOut ∧
    (joincap inputs a w).heaps = (joincap inputs b w).heaps ∧
    (joincap inputs a w).err = (joincap inputs b w).err := by
  rw [joincap_eq inputs a w, joincap_eq inputs b w]
  obtain ⟨e1, e2, e3⟩ := initGo_pt_indep inputs 0 LinkTypeNull [] [] a b
  simp only
  rw [e1, e2, e3]
  obtain ⟨o1, o2⟩ := mergeLoop_baseline_indep
    (initGo inputs 0 LinkTypeNull [] [] b).2.2.1
    (initGo inputs 0 LinkTypeNull [] [] b).2.1
    (initGo inputs 0 LinkTypeNull [] [] a).2.2.2
    (initGo inputs 0 LinkTypeNull [] [] b).2.2.2
  rw [o1, o2]
  exact ⟨rfl, rfl, rfl, rfl, trivial⟩

/-- C9: a failing per-record write is invisible to the engine: the run
emits the same records with the same heap trace, error and final
baseline as a run whose sink accepts everything; the file receives
exactly the accepted records; and previousTimestamp ends at the
timestamp of the last emitted record even when its write failed. -/
theorem claim_C9_write_failure (inputs : List InputFile) (pt0 : Int)
    (w : Packet → Bool) :
    (joincap inputs pt0 w).out = (joincap inputs pt0 noFail).out ∧
    (joincap inputs pt0 w).header = (joincap inputs pt0 noFail).header ∧
    (joincap inputs pt0 w).finalPrev = (joincap inputs pt0 noFail).finalPrev ∧
    (joincap inputs pt0 w).heaps = (joincap inputs pt0 noFail).heaps ∧
    (joincap inputs pt0 w).err = (joincap inputs pt0 noFail).err ∧
    (joincap inputs pt0 w).fileOut =
      (joincap inputs pt0 w).out.filter (fun q => ! w q) ∧
    (∀ q, (joincap inputs pt0 w).out.getLast? = some q →
      (joincap inputs pt0 w).finalPrev = q.timestamp) := by
  rw [joincap_eq inputs pt0 w, joincap_eq inputs pt0 noFail]
  simp only
  refine ⟨trivial, trivial, trivial, trivial, trivial, ?_, ?_⟩
  · simpa using write_foldl_filter w _ []
  · intro q hq
    rw [mergeLoop_finalPrev]
    exact getLastD_map_timestamp _ hq

/-- C1: over time-ordered input sources every pair of adjacent emitted
records is non-decreasing in timestamp (here without even excepting
records adjacent to an anomaly drop: with sorted sources the whole
emission sequence is ordered). -/
theorem claim_C1_order_preservation (inputs : List InputFile) (pt0 : Int)
    (w : Packet → Bool) (hs : ∀ f ∈ inputs, itemsSorted (inputItems f)) :
    List.Chain' pktLE (joincap inputs pt0 w).out := by
  rw [joincap_eq]
  simp only
  obtain ⟨-, hsorted, -, hL, -⟩ := initGo_spec inputs 0 LinkTypeNull [] [] pt0 rfl
    (by intro s hcon; simp at hcon)
    (by intro q hcon; simp at hcon)
    (by intro q hcon; simp at hcon)
    (by intro j hj; exact absurd rfl hj)
    hs
  exact ((mergeLoop_sorted_spec _ _ _ hsorted hL).1).chain'

/-- Witness for C1 on the spec scenario of section 8: sources at 10,20,30
and 15,25. -/
theorem claim_C1_witness :
    List.Chain' pktLE (joincap
      [InputFile.ok 1 [ReadItem.ok 10 [1], ReadItem.ok 20 [1], ReadItem.ok 30 [1]],
       InputFile.ok 1 [ReadItem.ok 15 [2], ReadItem.ok 25 [2]]] 0 noFail).out :=
  claim_C1_order_preservation _ 0 noFail (by decide)

/-- C4: the heap stages at most one packet per still-active source.  The
first snapshot is the initialization heap, which stages exactly one
packet per surviving input in file order; every snapshot has pairwise
distinct source indices; and consecutive snapshots differ by one pop
and at most one push drawn from the popped source. -/
theorem claim_C4_heap_discipline (inputs : List InputFile) (pt0 : Int)
    (w : Packet → Bool) :
    (∀ hs ∈ (joincap inputs pt0 w).heaps, ((hs.map Packet.src).Nodup)) ∧
    (joincap inputs pt0 w).heaps.head? =
      some (initHeapWithInputFiles inputs pt0).1.2.1 ∧
    (initHeapWithInputFiles inputs pt0).1.2.1.map Packet.src = survivorsAux inputs 0 ∧
    List.Chain' stepRel (joincap inputs pt0 w).heaps := by
  have hmap : (initGo inputs 0 LinkTypeNull [] [] pt0).2.1.map Packet.src =
      survivorsAux inputs 0 := by
    rw [initGo_heap_srcs]
    rfl
  have hnd : ((initGo inputs 0 LinkTypeNull [] [] pt0).2.1.map Packet.src).Nodup := by
    rw [hmap]
    exact survivorsAux_nodup inputs 0
  rw [joincap_eq]
  simp only
  exact ⟨mergeLoop_nodup _ _ _ hnd, mergeLoop_heaps_head _ _ _, hmap,
    mergeLoop_chain _ _ _⟩

/-- C2: merging a clean time-ordered capture with itself emits exactly
twice its record count: no record is lost and none is duplicated. -/
theorem claim_C2_count_conservation (lt : Nat) (items : List ReadItem) (pt0 : Int)
    (hclean : cleanItems items) (hsorted : itemsSorted items) :
    (joincap [InputFile.ok lt items, InputFile.ok lt items] pt0 noFail).out.length =
      2 * items.length := by
  rw [joincap_eq]
  simp only
  cases items with
  | nil =>
    have e1 : (initGo [InputFile.ok lt [], InputFile.ok lt []] 0 LinkTypeNull
        [] [] pt0).2.1 = [] := by
      simp [initGo, readNext]
    have e2 : (initGo [InputFile.ok lt [], InputFile.ok lt []] 0 LinkTypeNull
        [] [] pt0).2.2.1 = [[], []] := by
      simp [initGo, readNext]
    rw [e1, e2, mergeLoop_eq_none (show heapPop [] = none from rfl)]
    rfl
  | cons a tail =>
    cases a with
    | decodeError =>
      exact absurd (hclean ReadItem.decodeError (List.mem_cons_self _ _))
        (by simp [cleanItem])
    | ok ts d =>
      have hd : d ≠ [] := by
        have := hclean _ (List.mem_cons_self _ _)
        simpa [cleanItem, List.isEmpty_iff] using this
      have hread : ∀ pt : Int,
          readNext pt true (ReadItem.ok ts d :: tail) = (some (ts, d), tail) :=
        fun pt => readNext_cons_ok_accept hd (by simp)
      have e1 : (initGo [InputFile.ok lt (ReadItem.ok ts d :: tail),
          InputFile.ok lt (ReadItem.ok ts d :: tail)] 0 LinkTypeNull [] [] pt0).2.1 =
          [⟨ts, d, 0⟩, ⟨ts, d, 1⟩] := by
        simp [initGo, hread, heapPush]
      have e2 : (initGo [InputFile.ok lt (ReadItem.ok ts d :: tail),
          InputFile.ok lt (ReadItem.ok ts d :: tail)] 0 LinkTypeNull [] [] pt0).2.2.1 =
          [tail, tail] := by
        simp [initGo, hread]
      have htail : itemsSorted tail ∧ ∀ t ∈ tsList tail, ts ≤ t := by
        constructor
        · simp only [itemsSorted, tsList, List.pairwise_cons] at hsorted
          exact hsorted.2
        · simp only [itemsSorted, tsList, List.pairwise_cons] at hsorted
          exact hsorted.1
      have htclean : cleanItems tail :=
        fun it hit => hclean it (List.mem_cons_of_mem _ hit)
      rw [e1, e2]
      have hcount := mergeLoop_count_spec [tail, tail] [⟨ts, d, 0⟩, ⟨ts, d, 1⟩]
        (initGo [InputFile.ok lt (ReadItem.ok ts d :: tail),
          InputFile.ok lt (ReadItem.ok ts d :: tail)] 0 LinkTypeNull [] [] pt0).2.2.2
        (by
          intro s hs
          have hs2 : s = tail := by
            rcases List.mem_cons.mp hs with hcase | hcase
            · exact hcase
            · simpa using hcase
          rw [hs2]
          exact ⟨htclean, htail.1⟩)
        (by
          intro q hq t ht
          have hq2 : q = ⟨ts, d, 0⟩ ∨ q = ⟨ts, d, 1⟩ := by
            rcases List.mem_cons.mp hq with hcase | hcase
            · exact Or.inl hcase
            · exact Or.inr (by simpa using hcase)
          rcases hq2 with hq2 | hq2 <;> rw [hq2] at ht ⊢
          · simp only [List.getD_cons_zero] at ht
            exact htail.2 t ht
          · simp only [List.getD_cons_succ, List.getD_cons_zero] at ht
            exact htail.2 t ht)
        (by
          intro q hq
          have hq2 : q = ⟨ts, d, 0⟩ ∨ q = ⟨ts, d, 1⟩ := by
            rcases List.mem_cons.mp hq with hcase | hcase
            · exact Or.inl hcase
            · exact Or.inr (by simpa using hcase)
          rcases hq2 with hq2 | hq2 <;> rw [hq2] <;> simp)
        (by
          intro j hj
          match j with
          | 0 => exact ⟨⟨ts, d, 0⟩, List.mem_cons_self _ _, rfl⟩
          | 1 => exact ⟨⟨ts, d, 1⟩, List.mem_cons_of_mem _ (List.mem_cons_self _ _), rfl⟩
          | (n + 2) =>
            exfalso
            apply hj
            rw [List.getD_eq_default]
            simp)
      rw [hcount]
      simp only [List.length_cons, List.length_nil, List.map_cons, List.map_nil,
        List.sum_cons, List.sum_nil]
      omega

/-- Witness for C2 on a concrete two-record capture. -/
theorem claim_C2_witness :
    (joincap [InputFile.ok 1 [ReadItem.ok 10 [1], ReadItem.ok 20 [2]],
      InputFile.ok 1 [ReadItem.ok 10 [1], ReadItem.ok 20 [2]]] 0 noFail).out.length =
      2 * ([ReadItem.ok 10 [1], ReadItem.ok 20 [2]] : List ReadItem).length :=
  claim_C2_count_conservation 1 [ReadItem.ok 10 [1], ReadItem.ok 20 [2]] 0
    (by decide) (by decide)

/-- C5 counterexample: with a sole remaining source, the record at
timestamp 10 read after the heap became empty is pushed into the heap
(second snapshot) instead of being emitted directly by the inner loop,
because the threshold is the int64 zero value, not unbounded.  The
record is still emitted, one heap round trip later. -/
theorem claim_C5_counterexample :
    (joincap [InputFile.ok 1 [ReadItem.ok 5 [1], ReadItem.ok 10 [2]]] 0 noFail).heaps =
      [[⟨5, [1], 0⟩], [⟨10, [2], 0⟩], []] ∧
    (joincap [InputFile.ok 1 [ReadItem.ok 5 [1], ReadItem.ok 10 [2]]] 0 noFail).out =
      [⟨5, [1], 0⟩, ⟨10, [2], 0⟩] := by
  rw [joincap_eq]
  have e0 : initGo [InputFile.ok 1 [ReadItem.ok 5 [1], ReadItem.ok 10 [2]]] 0
      LinkTypeNull [] [] 0 = (1, [⟨5, [1], 0⟩], [[ReadItem.ok 10 [2]]], 5) := by
    decide
  have h1 : heapPop [(⟨5, [1], 0⟩ : Packet)] = some (⟨5, [1], 0⟩, ([] : List Packet)) := by
    decide
  have h2 : heapPop [(⟨10, [2], 0⟩ : Packet)] = some (⟨10, [2], 0⟩, ([] : List Packet)) := by
    decide
  have h3 : heapPop ([] : List Packet) = none := by decide
  have e1 : innerLoop 0 (heapMinTs []) 5 [ReadItem.ok 10 [2]] =
      ⟨[], 5, [], some ⟨10, [2], 0⟩⟩ :=
    innerLoop_eq_push 0 (heapMinTs [])
      (by decide : readNext 5 false [ReadItem.ok 10 [2]] = (some (10, [2]), []))
      (by decide)
  have e2 : innerLoop 0 (heapMinTs []) 10 ([] : List ReadItem) = ⟨[], 10, [], none⟩ :=
    innerLoop_eq_none 0 (heapMinTs [])
      (by decide : readNext 10 false [] = (none, []))
  simp only [e0, mergeLoop_eq_step h1, mergeLoop_eq_step h2, mergeLoop_eq_none h3,
    List.getD_cons_zero, List.set_cons_zero, e1, e2, pushOpt, heapPush,
    List.nil_append, List.cons_append]
  exact ⟨trivial, trivial⟩

/-- C5 as amended: when the heap is empty after the outer pop the
threshold is the zero value 0 rather than unbounded, so an accepted
record with positive timestamp from the sole remaining source is pushed
into the heap and emitted by the next outer iteration, not directly by
the inner loop; it is still the very next record emitted. -/
theorem claim_C5_empty_heap_threshold (sources : List (List ReadItem))
    (h : List Packet) (p : Int) (p0 : Packet) (ts : Int) (d : Payload)
    (rest' : List ReadItem) (hp : heapPop h = some (p0, []))
    (hr : readNext p0.timestamp false (sources.getD p0.src []) = (some (ts, d), rest'))
    (hts : 0 < ts) :
    (mergeLoop sources h p).out.take 2 = [p0, ⟨ts, d, p0.src⟩] ∧
    (mergeLoop sources h p).heaps.take 2 = [h, [⟨ts, d, p0.src⟩]] := by
  have hth : heapMinTs ([] : List Packet) = 0 := rfl
  have hgt : ¬ ts ≤ heapMinTs ([] : List Packet) := by
    rw [hth]
    omega
  have hpush : pushOpt [] (some (⟨ts, d, p0.src⟩ : Packet)) = [⟨ts, d, p0.src⟩] := rfl
  have h2 : heapPop [(⟨ts, d, p0.src⟩ : Packet)] = some (⟨ts, d, p0.src⟩, []) := rfl
  rw [mergeLoop_eq_step hp, innerLoop_eq_push p0.src (heapMinTs []) hr hgt]
  simp only [hpush, mergeLoop_eq_step h2]
  constructor
  · simp [List.take]
  · simp [List.take, mergeLoop_heaps_head]

/-- Witness for C5 as amended, on the counterexample run. -/
theorem claim_C5_witness :
    (mergeLoop [[ReadItem.ok 10 [2]]] [⟨5, [1], 0⟩] 5).out.take 2 =
      [⟨5, [1], 0⟩, ⟨10, [2], 0⟩] ∧
    (mergeLoop [[ReadItem.ok 10 [2]]] [⟨5, [1], 0⟩] 5).heaps.take 2 =
      [[⟨5, [1], 0⟩], [⟨10, [2], 0⟩]] :=
  claim_C5_empty_heap_threshold [[ReadItem.ok 10 [2]]] [⟨5, [1], 0⟩] 5
    ⟨5, [1], 0⟩ 10 [2] [] (by decide) (by decide) (by decide)

/-- C7 counterexample: the first successfully opened source declares
LinkTypeNull and a later one declares 101; the claim predicts the
Ethernet fallback, but the Null zero value acts as an unset sentinel,
so the later type reseeds the header instead. -/
theorem claim_C7_counterexample :
    (joincap [InputFile.ok LinkTypeNull [ReadItem.ok 1 [1]],
      InputFile.ok 101 [ReadItem.ok 2 [1]]] 0 noFail).header =
      some (maxSnaplen, 101) ∧ (101 : Nat) ≠ LinkTypeEthernet := by
  constructor
  · decide
  · decide

/-- C7 as amended: the resolution treats LinkTypeNull as unset.  When
the first successfully opened source declares a link type other than
Null, the header carries that type if every later opened source agrees
with it and the Ethernet fallback otherwise. -/
theorem claim_C7_link_type_resolution (inputs : List InputFile) (pt0 : Int)
    (w : Packet → Bool) (l : Nat) (ls : List Nat)
    (hop : openedLinkTypes inputs = l :: ls) (hl : l ≠ LinkTypeNull) :
    (joincap inputs pt0 w).header =
      some (maxSnaplen, if ∀ x ∈ ls, x = l then l else LinkTypeEthernet) := by
  rw [joincap_eq]
  simp only
  rw [initGo_lt, hop]
  have hstep : ltStep LinkTypeNull l = l := by simp [ltStep]
  simp only [ltFold, hstep]
  rw [ltFold_seeded l hl ls]

/-- Witness for C7 as amended: two agreeing sources of type 7 keep 7 in
the header. -/
theorem claim_C7_witness :
    (joincap [InputFile.openFail, InputFile.ok 7 [], InputFile.ok 7 [ReadItem.ok 1 [1]]]
      0 noFail).header = some (maxSnaplen, 7) := by
  have h := claim_C7_link_type_resolution
    [InputFile.openFail, InputFile.ok 7 [], InputFile.ok 7 [ReadItem.ok 1 [1]]]
    0 noFail 7 [7] (by decide) (by decide)
  simpa using h

/-- Every file skipped by initialization: it fails to open, to parse, or
to yield a first packet. -/
def skippedFile : InputFile → Prop
  | InputFile.openFail => True
  | InputFile.parseFail => True
  | InputFile.ok _ items => (readNext 0 true items).1 = none

instance (f : InputFile) : Decidable (skippedFile f) := by
  cases f with
  | openFail => exact Decidable.isTrue trivial
  | parseFail => exact Decidable.isTrue trivial
  | ok flt items => exact inferInstanceAs (Decidable (_ = _))

theorem survivorsAux_nil_of_skipped {fs : List InputFile}
    (hsk : ∀ f ∈ fs, skippedFile f) (i : Nat) : survivorsAux fs i = [] := by
  induction fs generalizing i with
  | nil => rfl
  | cons f fs ih =>
    have hf := hsk f (List.mem_cons_self _ _)
    have hrest : ∀ g ∈ fs, skippedFile g := fun g hg => hsk g (List.mem_cons_of_mem _ hg)
    cases f with
    | openFail => exact ih hrest (i + 1)
    | parseFail => exact ih hrest (i + 1)
    | ok flt items =>
      have hnone : (readNext 0 true items).1.isSome = false := by
        have : (readNext 0 true items).1 = none := hf
        rw [this]
        rfl
      simp only [survivorsAux, hnone, Bool.false_eq_true, if_false]
      exact ih hrest (i + 1)

theorem openedLinkTypes_nil_of_failed {fs : List InputFile}
    (hf : ∀ f ∈ fs, f = InputFile.openFail ∨ f = InputFile.parseFail) :
    openedLinkTypes fs = [] := by
  induction fs with
  | nil => rfl
  | cons f fs ih =>
    have hrest : ∀ g ∈ fs, g = InputFile.openFail ∨ g = InputFile.parseFail :=
      fun g hg => hf g (List.mem_cons_of_mem _ hg)
    rcases hf f (List.mem_cons_self _ _) with hcase | hcase <;> rw [hcase] <;>
      simpa [openedLinkTypes] using ih hrest

/-- C10 counterexample: an input that opens and parses but yields no
first packet is skipped, yet it has already seeded the output link
type: the header of the all-skipped run carries 101, not the claimed
Null link type. -/
theorem claim_C10_counterexample :
    (joincap [InputFile.ok 101 []] 0 noFail).err = none ∧
    (joincap [InputFile.ok 101 []] 0 noFail).out = [] ∧
    (joincap [InputFile.ok 101 []] 0 noFail).header = some (maxSnaplen, 101) ∧
    (101 : Nat) ≠ LinkTypeNull := by
  refine ⟨rfl, ?_, by decide, by decide⟩
  rw [joincap_eq]
  have e0 : initGo [InputFile.ok 101 []] 0 LinkTypeNull [] [] 0 =
      (101, [], [[]], 0) := by decide
  simp only [e0]
  rw [mergeLoop_eq_none (show heapPop [] = none from rfl)]

/-- C10 as amended: initHeapWithInputFiles returns a nil error on every
input list, so the cannot-initialize branch of joincap is unreachable
and every run writes a header with snaplen 262144 and returns nil; when
every input is skipped the run emits zero records; and the header link
type is Null when no input got as far as link type resolution, while an
input that opens and parses seeds it even if it is then skipped for
lacking a first packet. -/
theorem claim_C10_init_never_fails :
    (∀ (inputs : List InputFile) (pt0 : Int),
        (initHeapWithInputFiles inputs pt0).2 = none) ∧
    (∀ (inputs : List InputFile) (pt0 : Int) (w : Packet → Bool),
        (joincap inputs pt0 w).err = none ∧
        (joincap inputs pt0 w).header =
          some (maxSnaplen, (initHeapWithInputFiles inputs pt0).1.1)) ∧
    (∀ (inputs : List InputFile) (pt0 : Int) (w : Packet → Bool),
        (∀ f ∈ inputs, skippedFile f) → (joincap inputs pt0 w).out = []) ∧
    (∀ (inputs : List InputFile) (pt0 : Int) (w : Packet → Bool),
        (∀ f ∈ inputs, f = InputFile.openFail ∨ f = InputFile.parseFail) →
        (joincap inputs pt0 w).header = some (maxSnaplen, LinkTypeNull)) := by
  refine ⟨fun inputs pt0 => rfl, fun inputs pt0 w => ⟨rfl, rfl⟩, ?_, ?_⟩
  · intro inputs pt0 w hsk
    have hmap : (initGo inputs 0 LinkTypeNull [] [] pt0).2.1.map Packet.src = [] := by
      rw [initGo_heap_srcs, survivorsAux_nil_of_skipped hsk]
      rfl
    have hnil : (initGo inputs 0 LinkTypeNull [] [] pt0).2.1 = [] :=
      List.map_eq_nil_iff.mp hmap
    rw [joincap_eq]
    simp only
    rw [hnil, mergeLoop_eq_none (show heapPop [] = none from rfl)]
  · intro inputs pt0 w hf
    rw [joincap_eq]
    simp only
    rw [initGo_lt, openedLinkTypes_nil_of_failed hf]
    rfl

/-- Witness for C10 as amended: a yield-failing input and an unopenable
input make a run with an empty output, and a run whose only input is
unopenable keeps the Null link type. -/
theorem claim_C10_witness :
    (joincap [InputFile.ok 101 [], InputFile.openFail] 0 noFail).out = [] ∧
    (joincap [InputFile.openFail] 0 noFail).header = some (maxSnaplen, LinkTypeNull) :=
  ⟨claim_C10_init_never_fails.2.2.1 [InputFile.ok 101 [], InputFile.openFail] 0 noFail
      (by decide),
    claim_C10_init_never_fails.2.2.2 [InputFile.openFail] 0 noFail (by decide)⟩

/-- Witness for C9: a sink rejecting every record leaves the engine
state unchanged: previousTimestamp still ends at the emitted record
timestamp and the file receives nothing. -/
theorem claim_C9_witness :
    (joincap [InputFile.ok 1 [ReadItem.ok 10 [1]]] 0 (fun _ => true)).finalPrev = 10 ∧
    (joincap [InputFile.ok 1 [ReadItem.ok 10 [1]]] 0 (fun _ => true)).fileOut = [] := by
  have hout : (joincap [InputFile.ok 1 [ReadItem.ok 10 [1]]] 0 (fun _ => true)).out =
      [⟨10, [1], 0⟩] := by
    rw [joincap_eq]
    have e0 : initGo [InputFile.ok 1 [ReadItem.ok 10 [1]]] 0 LinkTypeNull [] [] 0 =
        (1, [⟨10, [1], 0⟩], [[]], 10) := by decide
    have h1 : heapPop [(⟨10, [1], 0⟩ : Packet)] =
        some (⟨10, [1], 0⟩, ([] : List Packet)) := by decide
    have e1 : innerLoop 0 (heapMinTs []) 10 ([] : List ReadItem) = ⟨[], 10, [], none⟩ :=
      innerLoop_eq_none 0 (heapMinTs [])
        (by decide : readNext 10 false [] = (none, []))
    simp only [e0, mergeLoop_eq_step h1, List.getD_cons_zero, List.set_cons_zero, e1,
      pushOpt, mergeLoop_eq_none (show heapPop [] = none from rfl),
      List.nil_append, List.cons_append]
  obtain ⟨-, -, -, -, -, hfile, hlast⟩ :=
    claim_C9_write_failure [InputFile.ok 1 [ReadItem.ok 10 [1]]] 0 (fun _ => true)
  constructor
  · have := hlast ⟨10, [1], 0⟩ (by rw [hout]; rfl)
    simpa using this
  · rw [hfile, hout]
    rfl

end Joincap
